import Mathlib

set_option linter.dupNamespace false
set_option linter.unusedTactic false

/-!
Verification of the DCPU-16 emulator and assembler (sunsided/dcpu-16).

The development shallowly embeds the Rust sources:
* `src/src/register.rs`  → `DCPU.Register`
* `src/src/value.rs`     → `DCPU.Emu.Value`
* `src/src/lib.rs`       → `DCPU.Emu.DCPU16` and its methods
* `src/src/instruction_argument.rs`, `src/src/instruction.rs`
                         → the `DCPU.Dec` namespace
* `src/src/assembler.rs` → the `DCPU.Asm` namespace

Machine words (`u16`) are embedded as `Nat` with explicit `% 65536`
wherever the Rust `u16`/`u32` arithmetic wraps (release semantics of the
unchecked operators); shift amounts are masked by the bit width as the
corresponding Rust shifts do.
-/

namespace DCPU

/-- 16-bit machine word, embedded as `Nat` (see the header comment). -/
abbrev Word := Nat

/-- `src/src/register.rs`: identifier for a CPU register. -/
inductive Register where
  | A | B | C | X | Y | Z | I | J
deriving DecidableEq, Repr

/-- `Register as usize`: the fixed ordinal of a register. -/
def Register.toIndex : Register → Nat
  | .A => 0
  | .B => 1
  | .C => 2
  | .X => 3
  | .Y => 4
  | .Z => 5
  | .I => 6
  | .J => 7

/-- `impl From<Word> for Register` (`src/src/register.rs`): the
`assert!(v <= Register::J as Word)` failure is modelled as `none`. -/
def Register.fromWord (v : Nat) : Option Register :=
  match v with
  | 0 => some .A
  | 1 => some .B
  | 2 => some .C
  | 3 => some .X
  | 4 => some .Y
  | 5 => some .Z
  | 6 => some .I
  | 7 => some .J
  | _ => none

namespace Emu

/-- `src/src/value.rs`: the operand kind of a 6-bit operand field. -/
inductive Value where
  | Register (register : DCPU.Register)
  | AtAddressFromRegister (register : DCPU.Register)
  | AtAddressFromNextWordPlusRegister (register : DCPU.Register)
  | Pop
  | Peek
  | Push
  | OfStackPointer
  | OfProgramCounter
  | OfOverflow
  | AtAddressFromNextWord
  | NextWordLiteral
  | Literal (value : Word)
deriving DecidableEq, Repr

/-- `impl From<u16> for Value` (`src/src/value.rs`): decode of a 6-bit
operand field; the `assert!(value < 0x40)` failure is modelled as `none`. -/
def Value.fromWord (v : Nat) : Option Value :=
  if v < 0x40 then
    if v ≤ 0x07 then (Register.fromWord v).map fun r => .Register r
    else if v ≤ 0x0f then (Register.fromWord (v - 0x08)).map fun r => .AtAddressFromRegister r
    else if v ≤ 0x17 then
      (Register.fromWord (v - 0x10)).map fun r => .AtAddressFromNextWordPlusRegister r
    else if v = 0x18 then some .Pop
    else if v = 0x19 then some .Peek
    else if v = 0x1a then some .Push
    else if v = 0x1b then some .OfStackPointer
    else if v = 0x1c then some .OfProgramCounter
    else if v = 0x1d then some .OfOverflow
    else if v = 0x1e then some .AtAddressFromNextWord
    else if v = 0x1f then some .NextWordLiteral
    else some (.Literal (v - 0x20))
  else none

/-- `enum Address` from `src/src/lib.rs`: a resolved storage site. -/
inductive Address where
  | Register (register : DCPU.Register)
  | Literal (value : Word)
  | Address (value : Word)
  | ProgramCounter
  | StackPointer
  | Overflow
deriving DecidableEq, Repr

/-- `src/src/lib.rs`: the non-basic instructions decoded for execution. -/
inductive NonBasicInstruction where
  | Reserved
  | Jsr (a : Value)
deriving DecidableEq, Repr

/-- `src/src/lib.rs`: the instruction set executed by `DCPU16::step`. -/
inductive Instruction where
  | NonBasic (nbi : NonBasicInstruction)
  | Set (a b : Value)
  | Add (a b : Value)
  | Sub (a b : Value)
  | Mul (a b : Value)
  | Div (a b : Value)
  | Mod (a b : Value)
  | Shl (a b : Value)
  | Shr (a b : Value)
  | And (a b : Value)
  | Bor (a b : Value)
  | Xor (a b : Value)
  | Ife (a b : Value)
  | Ifn (a b : Value)
  | Ifg (a b : Value)
  | Ifb (a b : Value)
deriving DecidableEq, Repr

/-- Instruction-word decode for the `Value`-operand `Instruction` consumed by
`DCPU16::read_instruction`. Modelled from the spec (§4.2): the `From<u16>`
impl for this iteration's `Instruction` is not under `src/`; the field layout
(`op = w & 0xF`, `a = (w>>4) & 0x3F`, `b = (w>>10) & 0x3F`, non-basic
sub-opcode in the `a` field with the sole operand in the `b` field) follows
the spec and the parallel decoder present in `src/src/instruction.rs`. -/
def Instruction.fromWord (w : Nat) : Option Instruction :=
  let opcode := w % 16
  let af := (w / 16) % 64
  let bf := (w / 1024) % 64
  match Value.fromWord af, Value.fromWord bf with
  | some a, some b =>
    match opcode with
    | 0 => some (.NonBasic (if af = 0x01 then .Jsr b else .Reserved))
    | 1 => some (.Set a b)
    | 2 => some (.Add a b)
    | 3 => some (.Sub a b)
    | 4 => some (.Mul a b)
    | 5 => some (.Div a b)
    | 6 => some (.Mod a b)
    | 7 => some (.Shl a b)
    | 8 => some (.Shr a b)
    | 9 => some (.And a b)
    | 10 => some (.Bor a b)
    | 11 => some (.Xor a b)
    | 12 => some (.Ife a b)
    | 13 => some (.Ifn a b)
    | 14 => some (.Ifg a b)
    | 15 => some (.Ifb a b)
    | _ => none
  | _, _ => none

/-- `struct DCPU16` (`src/src/lib.rs`). RAM and the register file are
embedded as functions from the index. -/
structure DCPU16 where
  ram : Nat → Nat
  registers : Nat → Nat
  program_counter : Nat
  previous_program_counter : Nat
  stack_pointer : Nat
  overflow : Nat
  program : List Nat

/-- `DCPU16::new`: the `assert!(program.len() < u16::MAX as usize)` failure
is modelled as `none`. Note `u16::MAX as usize = 65535`. -/
def DCPU16.new (program : List Word) : Option DCPU16 :=
  if program.length < 65535 then
    some { ram := fun _ => 0
           registers := fun _ => 0
           program_counter := 0
           previous_program_counter := 0
           stack_pointer := 65535
           overflow := 0
           program := program }
  else none

/-- `DCPU16::read_word_and_advance_pc`: out-of-bounds indexing of the
program slice is modelled as `none`. -/
def DCPU16.read_word_and_advance_pc (s : DCPU16) : Option (Word × DCPU16) :=
  match s.program.get? s.program_counter with
  | some w => some (w, { s with program_counter := (s.program_counter + 1) % 65536 })
  | none => none

/-- `DCPU16::read_value`. -/
def DCPU16.read_value (s : DCPU16) (address : Address) : Word :=
  match address with
  | .Literal value => value
  | .Register register => s.registers register.toIndex
  | .Address address => s.ram address
  | .ProgramCounter => s.program_counter
  | .StackPointer => s.stack_pointer
  | .Overflow => s.overflow

/-- `DCPU16::store_value`: a store to a `Literal` site silently succeeds. -/
def DCPU16.store_value (s : DCPU16) (address : Address) (value : Word) : DCPU16 :=
  match address with
  | .Literal _ => s
  | .Register register => { s with registers := Function.update s.registers register.toIndex value }
  | .Address address => { s with ram := Function.update s.ram address value }
  | .ProgramCounter => { s with program_counter := value }
  | .StackPointer => { s with stack_pointer := value }
  | .Overflow => { s with overflow := value }

/-- `DCPU16::interpret_address`. Note the source resolves a small literal
`Value::Literal { value }` to `Address::Address(value)`, i.e. a RAM site. -/
def DCPU16.interpret_address (s : DCPU16) (value : Value) : Option (DCPU16 × Address) :=
  match value with
  | .Register register => some (s, .Register register)
  | .AtAddressFromRegister register => some (s, .Address (s.registers register.toIndex))
  | .AtAddressFromNextWordPlusRegister register =>
    match s.read_word_and_advance_pc with
    | some (word, s1) => some (s1, .Address ((word + s1.registers register.toIndex) % 65536))
    | none => none
  | .Pop =>
    some ({ s with stack_pointer := (s.stack_pointer + 1) % 65536 }, .Address s.stack_pointer)
  | .Peek => some (s, .Address s.stack_pointer)
  | .Push =>
    some ({ s with stack_pointer := (s.stack_pointer + 65535) % 65536 },
          .Address ((s.stack_pointer + 65535) % 65536))
  | .OfStackPointer => some (s, .StackPointer)
  | .OfProgramCounter => some (s, .ProgramCounter)
  | .OfOverflow => some (s, .Overflow)
  | .AtAddressFromNextWord =>
    match s.read_word_and_advance_pc with
    | some (word, s1) => some (s1, .Address word)
    | none => none
  | .NextWordLiteral =>
    match s.read_word_and_advance_pc with
    | some (word, s1) => some (s1, .Literal word)
    | none => none
  | .Literal value => some (s, .Address value)

/-- `DCPU16::resolve_address`: `interpret_address` followed by `read_value`. -/
def DCPU16.resolve_address (s : DCPU16) (value : Value) : Option (DCPU16 × Address × Word) :=
  match s.interpret_address value with
  | some (s1, address) => some (s1, address, s1.read_value address)
  | none => none

/-- `struct ResolvedValue` (`src/src/lib.rs`). -/
structure ResolvedValue where
  value : Value
  address : Address
  value_at_address : Word
deriving DecidableEq, Repr

/-- `struct InstructionWithOperands` (`src/src/lib.rs`). -/
structure InstructionWithOperands where
  word : Word
  instruction : Instruction
  a : ResolvedValue
  b : Option ResolvedValue
deriving DecidableEq, Repr

/-- `InstructionWithOperands::resolve_1op`. -/
def InstructionWithOperands.resolve_1op (s : DCPU16) (word : Word)
    (instruction : Instruction) (a : Value) : Option (DCPU16 × InstructionWithOperands) :=
  match s.resolve_address a with
  | some (s1, lhs_addr, lhs) =>
    some (s1, { word := word, instruction := instruction
                a := { value := a, address := lhs_addr, value_at_address := lhs }
                b := none })
  | none => none

/-- `InstructionWithOperands::resolve_2op`: `a` is resolved before `b`. -/
def InstructionWithOperands.resolve_2op (s : DCPU16) (word : Word)
    (instruction : Instruction) (a b : Value) : Option (DCPU16 × InstructionWithOperands) :=
  match s.resolve_address a with
  | some (s1, lhs_addr, lhs) =>
    match s1.resolve_address b with
    | some (s2, rhs_addr, rhs) =>
      some (s2, { word := word, instruction := instruction
                  a := { value := a, address := lhs_addr, value_at_address := lhs }
                  b := some { value := b, address := rhs_addr, value_at_address := rhs } })
    | none => none
  | none => none

/-- `DCPU16::read_instruction`: fetch the instruction word, decode, and
resolve the operands; the `panic!()` on `Reserved` is modelled as `none`. -/
def DCPU16.read_instruction (s : DCPU16) : Option (DCPU16 × InstructionWithOperands) :=
  match s.read_word_and_advance_pc with
  | some (instruction_word, s1) =>
    match Instruction.fromWord instruction_word with
    | some instruction =>
      match instruction with
      | .NonBasic nbi =>
        match nbi with
        | .Reserved => none
        | .Jsr a => InstructionWithOperands.resolve_1op s1 instruction_word instruction a
      | .Set a b => InstructionWithOperands.resolve_2op s1 instruction_word instruction a b
      | .Add a b => InstructionWithOperands.resolve_2op s1 instruction_word instruction a b
      | .Sub a b => InstructionWithOperands.resolve_2op s1 instruction_word instruction a b
      | .Mul a b => InstructionWithOperands.resolve_2op s1 instruction_word instruction a b
      | .Div a b => InstructionWithOperands.resolve_2op s1 instruction_word instruction a b
      | .Mod a b => InstructionWithOperands.resolve_2op s1 instruction_word instruction a b
      | .Shl a b => InstructionWithOperands.resolve_2op s1 instruction_word instruction a b
      | .Shr a b => InstructionWithOperands.resolve_2op s1 instruction_word instruction a b
      | .And a b => InstructionWithOperands.resolve_2op s1 instruction_word instruction a b
      | .Bor a b => InstructionWithOperands.resolve_2op s1 instruction_word instruction a b
      | .Xor a b => InstructionWithOperands.resolve_2op s1 instruction_word instruction a b
      | .Ife a b => InstructionWithOperands.resolve_2op s1 instruction_word instruction a b
      | .Ifn a b => InstructionWithOperands.resolve_2op s1 instruction_word instruction a b
      | .Ifg a b => InstructionWithOperands.resolve_2op s1 instruction_word instruction a b
      | .Ifb a b => InstructionWithOperands.resolve_2op s1 instruction_word instruction a b
    | none => none
  | none => none

/-- `DCPU16::skip_instruction`: reads (and discards) one whole instruction. -/
def DCPU16.skip_instruction (s : DCPU16) : Option DCPU16 :=
  match s.read_instruction with
  | some (s1, _) => some s1
  | none => none

/-- The execution phase of `DCPU16::step` (the big `match` on the decoded
instruction). `panic!()` and `Option::unwrap` failures are modelled as
`none`. -/
def DCPU16.execute (s : DCPU16) (iwo : InstructionWithOperands) : Option DCPU16 :=
  match iwo.instruction with
  | .NonBasic nbi =>
    match nbi with
    | .Reserved => none
    | .Jsr _ =>
      let sp := (s.stack_pointer + 65535) % 65536
      some { s with stack_pointer := sp
                    ram := Function.update s.ram sp s.program_counter
                    program_counter := iwo.a.value_at_address }
  | .Set _ _ =>
    match iwo.b with
    | some rb => some (s.store_value iwo.a.address rb.value_at_address)
    | none => none
  | .Add _ _ =>
    match iwo.b with
    | some rb =>
      let lhs := iwo.a.value_at_address
      let rhs := rb.value_at_address
      some (({ s with overflow := if lhs + rhs ≥ 65536 then 0x0001 else 0x0 }).store_value
        iwo.a.address ((lhs + rhs) % 65536))
    | none => none
  | .Sub _ _ =>
    match iwo.b with
    | some rb =>
      let lhs := iwo.a.value_at_address
      let rhs := rb.value_at_address
      some (({ s with overflow := if rhs > lhs then 0xffff else 0x0 }).store_value
        iwo.a.address ((lhs + 65536 - rhs) % 65536))
    | none => none
  | .Mul _ _ =>
    match iwo.b with
    | some rb =>
      let lhs := iwo.a.value_at_address
      let rhs := rb.value_at_address
      some (({ s with overflow := (lhs * rhs / 65536) % 65536 }).store_value
        iwo.a.address ((lhs * rhs) % 65536))
    | none => none
  | .Div _ _ =>
    match iwo.b with
    | some rb =>
      let lhs := iwo.a.value_at_address
      let rhs := rb.value_at_address
      if rhs > 0 then
        some (({ s with overflow := (lhs * 65536 / rhs) % 65536 }).store_value
          iwo.a.address (lhs / rhs))
      else
        some (({ s with overflow := 0 }).store_value iwo.a.address 0)
    | none => none
  | .Mod _ _ =>
    match iwo.b with
    | some rb =>
      let lhs := iwo.a.value_at_address
      let rhs := rb.value_at_address
      if rhs > 0 then some (s.store_value iwo.a.address (lhs % rhs))
      else some (s.store_value iwo.a.address 0)
    | none => none
  | .Shl _ _ =>
    match iwo.b with
    | some rb =>
      let lhs := iwo.a.value_at_address
      let rhs := rb.value_at_address
      some (({ s with
          overflow := (((lhs <<< (rhs % 32)) % 4294967296) >>> 16) % 65536 }).store_value
        iwo.a.address ((lhs <<< (rhs % 16)) % 65536))
    | none => none
  | .Shr _ _ =>
    match iwo.b with
    | some rb =>
      let lhs := iwo.a.value_at_address
      let rhs := rb.value_at_address
      some (({ s with
          overflow := (((lhs <<< 16) % 4294967296) >>> (rhs % 32)) % 65536 }).store_value
        iwo.a.address (lhs >>> (rhs % 16)))
    | none => none
  | .And _ _ =>
    match iwo.b with
    | some rb => some (s.store_value iwo.a.address (iwo.a.value_at_address &&& rb.value_at_address))
    | none => none
  | .Bor _ _ =>
    match iwo.b with
    | some rb => some (s.store_value iwo.a.address (iwo.a.value_at_address ||| rb.value_at_address))
    | none => none
  | .Xor _ _ =>
    match iwo.b with
    | some rb => some (s.store_value iwo.a.address (iwo.a.value_at_address ^^^ rb.value_at_address))
    | none => none
  | .Ife _ _ =>
    match iwo.b with
    | some rb =>
      if ¬(iwo.a.value_at_address = rb.value_at_address) then s.skip_instruction else some s
    | none => none
  | .Ifn _ _ =>
    match iwo.b with
    | some rb =>
      if ¬(iwo.a.value_at_address ≠ rb.value_at_address) then s.skip_instruction else some s
    | none => none
  | .Ifg _ _ =>
    match iwo.b with
    | some rb =>
      if ¬(iwo.a.value_at_address > rb.value_at_address) then s.skip_instruction else some s
    | none => none
  | .Ifb _ _ =>
    match iwo.b with
    | some rb =>
      if ¬(iwo.a.value_at_address ||| rb.value_at_address ≠ 0) then s.skip_instruction
      else some s
    | none => none

/-- `DCPU16::step`: returns the new state and whether execution should
continue. -/
def DCPU16.step (s0 : DCPU16) : Option (DCPU16 × Bool) :=
  let s := { s0 with previous_program_counter := s0.program_counter }
  match s.read_instruction with
  | some (s1, iwo) =>
    match s1.execute iwo with
    | some s2 =>
      if s2.previous_program_counter = s2.program_counter then some (s2, false)
      else some (s2, decide (s2.program_counter < s2.program.length))
    | none => none
  | none => none

/-- `DCPU16::run` (`sample.rs` loop): repeats `step` until it returns
`false`; the `fuel` argument bounds the number of steps taken, `none`
meaning the bound was hit (or a step failed). -/
def DCPU16.run : Nat → DCPU16 → Option DCPU16
  | 0, _ => none
  | fuel + 1, s =>
    match s.step with
    | some (s1, true) => DCPU16.run fuel s1
    | some (s1, false) => some s1
    | none => none

/-- The 28-word example image of `src/examples/sample.rs`. -/
def sampleProgram : List Word :=
  [0x7c01, 0x0030, 0x7de1, 0x1000, 0x0020, 0x7803, 0x1000, 0xc00d, 0x7dc1, 0x001a, 0xa861,
   0x7c01, 0x2000, 0x2161, 0x2000, 0x8463, 0x806d, 0x7dc1, 0x000d, 0x9031, 0x7c10, 0x0018,
   0x7dc1, 0x001a, 0x9037, 0x61c1, 0x7dc1, 0x001a]

/-- A CPU about to execute `SHL A, 16` (program `[0x7c07, 0x0010]`) with
`A = 1`. -/
def shlState : DCPU16 :=
  { ram := fun _ => 0
    registers := fun i => if i = 0 then 1 else 0
    program_counter := 0
    previous_program_counter := 0
    stack_pointer := 65535
    overflow := 0
    program := [0x7c07, 16] }

/-- A CPU about to execute `SET PC, 0x0000` placed at address 0. -/
def c4state : DCPU16 :=
  { ram := fun _ => 0
    registers := fun _ => 0
    program_counter := 0
    previous_program_counter := 0
    stack_pointer := 65535
    overflow := 0
    program := [0x7dc1, 0] }

/-- A CPU about to execute `JSR A` (word `0x0010`). -/
def c5state : DCPU16 :=
  { ram := fun _ => 0
    registers := fun _ => 0
    program_counter := 0
    previous_program_counter := 0
    stack_pointer := 0
    overflow := 0
    program := [0x0010] }

/-- A CPU about to execute `SHL A, 5` with `A = 3`. -/
def c6shlState : DCPU16 :=
  { ram := fun _ => 0
    registers := fun i => if i = 0 then 3 else 0
    program_counter := 0
    previous_program_counter := 0
    stack_pointer := 65535
    overflow := 0
    program := [0x7c07, 5] }

/-- A CPU about to execute `SHR A, 5` with `A = 3`. -/
def c6shrState : DCPU16 :=
  { ram := fun _ => 0
    registers := fun i => if i = 0 then 3 else 0
    program_counter := 0
    previous_program_counter := 0
    stack_pointer := 65535
    overflow := 0
    program := [0x7c08, 5] }

/-- A CPU about to execute `SET PUSH, POP` (word `0x61a1`). -/
def c9state : DCPU16 :=
  { ram := fun _ => 0
    registers := fun _ => 0
    program_counter := 0
    previous_program_counter := 0
    stack_pointer := 65535
    overflow := 0
    program := [0x61a1] }

/-- A CPU whose PC already lies past the end of its two-word image. -/
def c10state : DCPU16 :=
  { ram := fun _ => 0
    registers := fun _ => 0
    program_counter := 5
    previous_program_counter := 0
    stack_pointer := 65535
    overflow := 0
    program := [1, 2] }

end Emu

namespace Dec

/-- `src/src/instruction_argument.rs`: the type of an operand slot. -/
inductive InstructionArgumentDefinition where
  | Register (register : DCPU.Register)
  | AtAddressFromRegister (register : DCPU.Register)
  | AtAddressFromNextWordPlusRegister (register : DCPU.Register)
  | Pop
  | Peek
  | Push
  | OfStackPointer
  | OfProgramCounter
  | OfOverflow
  | AtAddressFromNextWord
  | NextWordLiteral
  | Literal (value : Word)
deriving DecidableEq, Repr

/-- `impl Decode for InstructionArgumentDefinition`: decode of a 6-bit
operand field; `assert!(value < 0x40)` failure modelled as `none`. -/
def InstructionArgumentDefinition.decode (v : Nat) : Option InstructionArgumentDefinition :=
  if v < 0x40 then
    if v ≤ 0x07 then (Register.fromWord v).map fun r => .Register r
    else if v ≤ 0x0f then (Register.fromWord (v - 0x08)).map fun r => .AtAddressFromRegister r
    else if v ≤ 0x17 then
      (Register.fromWord (v - 0x10)).map fun r => .AtAddressFromNextWordPlusRegister r
    else if v = 0x18 then some .Pop
    else if v = 0x19 then some .Peek
    else if v = 0x1a then some .Push
    else if v = 0x1b then some .OfStackPointer
    else if v = 0x1c then some .OfProgramCounter
    else if v = 0x1d then some .OfOverflow
    else if v = 0x1e then some .AtAddressFromNextWord
    else if v = 0x1f then some .NextWordLiteral
    else some (.Literal (v - 0x20))
  else none

/-- `InstructionArgumentDefinition::num_extra_words`. -/
def InstructionArgumentDefinition.num_extra_words : InstructionArgumentDefinition → Nat
  | .AtAddressFromNextWordPlusRegister _ => 1
  | .AtAddressFromNextWord => 1
  | .NextWordLiteral => 1
  | _ => 0

/-- `src/src/instruction.rs`: the non-basic instructions. -/
inductive NonBasicInstruction where
  | Reserved
  | Jsr (a : InstructionArgumentDefinition)
deriving DecidableEq, Repr

/-- `src/src/instruction.rs`: a decoded instruction word. -/
inductive InstructionWord where
  | NonBasic (nbi : NonBasicInstruction)
  | Set (a b : InstructionArgumentDefinition)
  | Add (a b : InstructionArgumentDefinition)
  | Sub (a b : InstructionArgumentDefinition)
  | Mul (a b : InstructionArgumentDefinition)
  | Div (a b : InstructionArgumentDefinition)
  | Mod (a b : InstructionArgumentDefinition)
  | Shl (a b : InstructionArgumentDefinition)
  | Shr (a b : InstructionArgumentDefinition)
  | And (a b : InstructionArgumentDefinition)
  | Bor (a b : InstructionArgumentDefinition)
  | Xor (a b : InstructionArgumentDefinition)
  | Ife (a b : InstructionArgumentDefinition)
  | Ifn (a b : InstructionArgumentDefinition)
  | Ifg (a b : InstructionArgumentDefinition)
  | Ifb (a b : InstructionArgumentDefinition)
deriving DecidableEq, Repr

/-- `impl From<u16> for NonBasicInstruction` (`src/src/instruction.rs`):
the sub-opcode sits in bits 4..9, the operand in bits 10..15; the
`assert_eq!(value & 0b1111, 0x0)` failure is modelled as `none`. -/
def NonBasicInstruction.fromWord (w : Nat) : Option NonBasicInstruction :=
  if w % 16 = 0 then
    match InstructionArgumentDefinition.decode ((w / 1024) % 64) with
    | some a =>
      match (w / 16) % 64 with
      | 0 => some .Reserved
      | 1 => some (.Jsr a)
      | n => if 2 ≤ n ∧ n ≤ 0x3f then some .Reserved else none
    | none => none
  else none

/-- `impl From<u16> for InstructionWord` (`src/src/instruction.rs`):
`op = w & 0xF`, `a = (w>>4) & 0x3F`, `b = (w>>10) & 0x3F`. -/
def InstructionWord.fromWord (w : Nat) : Option InstructionWord :=
  let opcode := w % 16
  match InstructionArgumentDefinition.decode ((w / 16) % 64),
        InstructionArgumentDefinition.decode ((w / 1024) % 64) with
  | some a, some b =>
    match opcode with
    | 0 => (NonBasicInstruction.fromWord w).map fun nbi => .NonBasic nbi
    | 1 => some (.Set a b)
    | 2 => some (.Add a b)
    | 3 => some (.Sub a b)
    | 4 => some (.Mul a b)
    | 5 => some (.Div a b)
    | 6 => some (.Mod a b)
    | 7 => some (.Shl a b)
    | 8 => some (.Shr a b)
    | 9 => some (.And a b)
    | 10 => some (.Bor a b)
    | 11 => some (.Xor a b)
    | 12 => some (.Ife a b)
    | 13 => some (.Ifn a b)
    | 14 => some (.Ifg a b)
    | 15 => some (.Ifb a b)
    | _ => none
  | _, _ => none

/-- `NonBasicInstruction::length_in_words`. -/
def NonBasicInstruction.length_in_words : NonBasicInstruction → Nat
  | .Reserved => 0
  | .Jsr a => a.num_extra_words

/-- `InstructionWord::length_in_words`: one word for the instruction itself
plus the extra words of the operands. -/
def InstructionWord.length_in_words : InstructionWord → Nat
  | .NonBasic op => 1 + op.length_in_words
  | .Set a b => 1 + (a.num_extra_words + b.num_extra_words)
  | .Add a b => 1 + (a.num_extra_words + b.num_extra_words)
  | .Sub a b => 1 + (a.num_extra_words + b.num_extra_words)
  | .Mul a b => 1 + (a.num_extra_words + b.num_extra_words)
  | .Div a b => 1 + (a.num_extra_words + b.num_extra_words)
  | .Mod a b => 1 + (a.num_extra_words + b.num_extra_words)
  | .Shl a b => 1 + (a.num_extra_words + b.num_extra_words)
  | .Shr a b => 1 + (a.num_extra_words + b.num_extra_words)
  | .And a b => 1 + (a.num_extra_words + b.num_extra_words)
  | .Bor a b => 1 + (a.num_extra_words + b.num_extra_words)
  | .Xor a b => 1 + (a.num_extra_words + b.num_extra_words)
  | .Ife a b => 1 + (a.num_extra_words + b.num_extra_words)
  | .Ifn a b => 1 + (a.num_extra_words + b.num_extra_words)
  | .Ifg a b => 1 + (a.num_extra_words + b.num_extra_words)
  | .Ifb a b => 1 + (a.num_extra_words + b.num_extra_words)

end Dec

namespace Asm

/-- Modelled from the spec: `StackOperation`, imported by
`src/src/assembler.rs` from `instruction_argument.rs` but absent from the
file present under `src/` (spec §6.2 stack ops POP/PEEK/PUSH). -/
inductive StackOperation where
  | Pop
  | Peek
  | Push
deriving DecidableEq, Repr

/-- Modelled from the spec: `SpecialRegister`, imported by
`src/src/assembler.rs` but absent from the file present under `src/`
(spec §6.2 special registers SP/PC/O). -/
inductive SpecialRegister where
  | StackPointer
  | ProgramCounter
  | Overflow
deriving DecidableEq, Repr

/-- The `InstructionArgument` variant set consumed by
`InstructionArgument::bake` in `src/src/assembler.rs`. -/
inductive InstructionArgument where
  | Register (register : DCPU.Register)
  | AddressFromRegister (register : DCPU.Register)
  | AddressOffset (address : Word) (register : DCPU.Register)
  | StackOperation (op : StackOperation)
  | SpecialRegister (sr : SpecialRegister)
  | Address (word : Word)
  | Literal (word : Word)
deriving DecidableEq, Repr

/-- `struct MaterializedValue` (`src/src/assembler.rs`). -/
structure MaterializedValue where
  inline : Nat
  literal : Option Word
deriving DecidableEq, Repr

/-- `InstructionArgument::bake` (`src/src/assembler.rs`). -/
def InstructionArgument.bake : InstructionArgument → MaterializedValue
  | .Register r => { inline := r.toIndex + 0x00, literal := none }
  | .AddressFromRegister r => { inline := r.toIndex + 0x08, literal := none }
  | .AddressOffset address r => { inline := r.toIndex + 0x10, literal := some address }
  | .StackOperation .Pop => { inline := 0x18, literal := none }
  | .StackOperation .Peek => { inline := 0x19, literal := none }
  | .StackOperation .Push => { inline := 0x1a, literal := none }
  | .SpecialRegister .StackPointer => { inline := 0x1b, literal := none }
  | .SpecialRegister .ProgramCounter => { inline := 0x1c, literal := none }
  | .SpecialRegister .Overflow => { inline := 0x1d, literal := none }
  | .Address w => { inline := 0x1e, literal := some w }
  | .Literal w =>
    if w > 0x1f then { inline := 0x1f, literal := some w }
    else { inline := w + 0x20, literal := none }

/-- `enum BasicOperationName` (`src/src/assembler.rs`). -/
inductive BasicOperationName where
  | SET | ADD | SUB | MUL | DIV | MOD | SHL | SHR
  | AND | BOR | XOR | IFE | IFN | IFG | IFB
deriving DecidableEq, Repr

/-- The opcode table of `BasicOperationName::bake`. -/
def BasicOperationName.opcode : BasicOperationName → Nat
  | .SET => 0x1
  | .ADD => 0x2
  | .SUB => 0x3
  | .MUL => 0x4
  | .DIV => 0x5
  | .MOD => 0x6
  | .SHL => 0x7
  | .SHR => 0x8
  | .AND => 0x9
  | .BOR => 0xA
  | .XOR => 0xB
  | .IFE => 0xC
  | .IFN => 0xD
  | .IFG => 0xE
  | .IFB => 0xF

/-- `BasicOperationName::bake`: the OR of the disjoint masked bit fields
`(opcode & 0xF) | ((a_inline & 0x3F) << 4) | ((b_inline & 0x3F) << 10)` is
written as the equivalent sum. Returns the instruction word, the first
extra word and the second extra word in fetch order (`a`'s literal first
when present). -/
def BasicOperationName.bake (op : BasicOperationName) (a b : InstructionArgument) :
    Word × Option Word × Option Word :=
  let a_baked := a.bake
  let b_baked := b.bake
  let instruction :=
    (op.opcode % 16) + ((a_baked.inline % 64) * 16) + ((b_baked.inline % 64) * 1024)
  if a_baked.literal.isSome then (instruction, a_baked.literal, b_baked.literal)
  else (instruction, b_baked.literal, none)

/-- `enum NonBasicOperationName` (`src/src/assembler.rs`). -/
inductive NonBasicOperationName where
  | JSR
deriving DecidableEq, Repr

/-- `NonBasicOperationName::bake`: sub-opcode in bits 4..9, operand field
in bits 10..15, low four bits zero. -/
def NonBasicOperationName.bake (op : NonBasicOperationName) (a : InstructionArgument) :
    Word × Option Word :=
  let opcode := match op with | .JSR => 0x1
  let a_baked := a.bake
  ((opcode % 64) * 16 + (a_baked.inline % 64) * 1024, a_baked.literal)

/-- `enum Value` (`src/src/assembler.rs`): a static argument or a label
reference. -/
inductive Value where
  | Static (arg : InstructionArgument)
  | LabelReference (name : String)
deriving DecidableEq, Repr

/-- `enum Instruction` (`src/src/assembler.rs`). -/
inductive Instruction where
  | BasicInstruction (op : BasicOperationName) (a b : Value)
  | NonBasicInstruction (op : NonBasicOperationName) (a : Value)
deriving DecidableEq, Repr

/-- `enum MetaInstruction` (`src/src/assembler.rs`). -/
inductive MetaInstruction where
  | Instruction (instruction : Instruction)
  | Label (name : String)
deriving DecidableEq, Repr

/-- The label map (`HashMap<String, Word>` in the source), embedded as an
association list; iteration order never matters to the source's uses. -/
abbrev LabelMap := List (String × Nat)

/-- `HashMap::insert` where the key is known to be present: update in
place (used by the first pass when a label definition is reached). -/
def LabelMap.setVal (m : LabelMap) (k : String) (v : Nat) : LabelMap :=
  m.map fun p => if p.1 = k then (k, v) else p

/-- The `label_map.iter_mut()` update of the fixed-point pass: every label
whose current address is strictly greater than `pos` is shifted by
`difference`; the i64 arithmetic followed by the `as Word` cast is the
Euclidean remainder modulo 2^16. -/
def LabelMap.shiftLabels (m : LabelMap) (pos : Nat) (difference : Int) : LabelMap :=
  m.map fun p =>
    if p.2 > pos then (p.1, (((p.2 : Int) + difference) % 65536).toNat) else p

/-- `enum MaterializedInstruction` (`src/src/assembler.rs`). -/
inductive MaterializedInstruction where
  | Static (instruction : Instruction) (instruction_word : Word)
      (arg1 arg2 : Option Word)
  | Flexible (instruction : Instruction) (instruction_word : Word)
      (arg1 arg2 : Option Word)
deriving DecidableEq, Repr

/-- `MaterializedInstruction::len`. -/
def MaterializedInstruction.len : MaterializedInstruction → Nat
  | .Static _ _ arg1 arg2 =>
    1 + (if arg1.isSome then 1 else 0) + (if arg2.isSome then 1 else 0)
  | .Flexible _ _ arg1 arg2 =>
    1 + (if arg1.isSome then 1 else 0) + (if arg2.isSome then 1 else 0)

/-- `Instruction::materialize` (`src/src/assembler.rs`): the
`label_map[reference]` panic on an undefined label and the
`panic!("LHS must not be a label reference")` are modelled as `none`. -/
def Instruction.materialize (i : Instruction) (label_map : LabelMap) :
    Option MaterializedInstruction :=
  match i with
  | .NonBasicInstruction nbi a =>
    match a with
    | .Static arg =>
      let baked := nbi.bake arg
      some (.Static i baked.1 baked.2 none)
    | .LabelReference reference =>
      match label_map.lookup reference with
      | some address =>
        let arg := InstructionArgument.Literal address
        let baked := nbi.bake arg
        some (.Flexible i baked.1 baked.2 none)
      | none => none
  | .BasicInstruction bi a b =>
    match a with
    | .Static arg1 =>
      match b with
      | .Static arg2 =>
        let baked := bi.bake arg1 arg2
        some (.Static i baked.1 baked.2.1 baked.2.2)
      | .LabelReference reference =>
        match label_map.lookup reference with
        | some address =>
          let arg2 := InstructionArgument.Literal address
          let baked := bi.bake arg1 arg2
          some (.Flexible i baked.1 baked.2.1 baked.2.2)
        | none => none
    | .LabelReference _ => none

/-- The duplicate-label pre-scan at the top of `assemble`: every label is
inserted with address `0x0000`; a duplicate definition is fatal. -/
def prescanLabels : List MetaInstruction → LabelMap → Option LabelMap
  | [], m => some m
  | .Instruction _ :: rest, m => prescanLabels rest m
  | .Label l :: rest, m =>
    if (m.lookup l).isSome then none
    else prescanLabels rest (m ++ [(l, 0)])

/-- The first (optimistic) pass of `assemble`: materialize against the
current map, accumulate the position, and record label positions as they
are encountered. -/
def firstPass : List MetaInstruction → LabelMap → Nat →
    Option (List MaterializedInstruction × LabelMap)
  | [], m, _ => some ([], m)
  | .Instruction i :: rest, m, pos =>
    match i.materialize m with
    | some materialized =>
      match firstPass rest m ((pos + materialized.len) % 65536) with
      | some (l, m') => some (materialized :: l, m')
      | none => none
    | none => none
  | .Label l :: rest, m, pos => firstPass rest (m.setVal l pos) pos

/-- One walk of the fixed-point pass of `assemble`: re-materialize every
flexible entry against the current map; on a length change record the
replacement and shift the labels past the current position; return the
(replacement-applied) list, the updated map, and whether anything changed. -/
def walkPass : List MaterializedInstruction → LabelMap → Nat →
    Option (List MaterializedInstruction × LabelMap × Bool)
  | [], m, _ => some ([], m, false)
  | entry :: rest, m, pos =>
    let current_length := entry.len
    let pos' := (pos + current_length) % 65536
    match entry with
    | .Static _ _ _ _ =>
      match walkPass rest m pos' with
      | some (l, m', c) => some (entry :: l, m', c)
      | none => none
    | .Flexible instr _ _ _ =>
      match instr.materialize m with
      | some new_instruction =>
        let new_length := new_instruction.len
        let difference : Int := (new_length : Int) - (current_length : Int)
        if difference ≠ 0 then
          match walkPass rest (m.shiftLabels pos' difference) pos' with
          | some (l, m', _) => some (new_instruction :: l, m', true)
          | none => none
        else
          match walkPass rest m pos' with
          | some (l, m', c) => some (entry :: l, m', c)
          | none => none
      | none => none

/-- The `loop` of the fixed-point pass, with explicit fuel: when a walk
changes nothing, an optimum is reached and the current state is returned. -/
def fixpointLoop : Nat → List MaterializedInstruction → LabelMap →
    Option (List MaterializedInstruction × LabelMap)
  | 0, _, _ => none
  | fuel + 1, instructions, m =>
    match walkPass instructions m 0 with
    | some (instructions', m', changed) =>
      if changed then fixpointLoop fuel instructions' m' else some (instructions, m)
    | none => none

/-- `write_instruction_word_into_bytestream`. -/
def write_instruction_word (instruction_word : Word) (arg1 arg2 : Option Word) :
    List Word :=
  instruction_word :: (arg1.toList ++ arg2.toList)

/-- `write_materialized_instruction_into_bytestream`: a `Flexible` entry is
re-materialized against the final label map before being written. -/
def write_materialized_instruction (entry : MaterializedInstruction)
    (label_map : LabelMap) : Option (List Word) :=
  match entry with
  | .Static _ instruction_word arg1 arg2 =>
    some (write_instruction_word instruction_word arg1 arg2)
  | .Flexible instruction _ _ _ =>
    match instruction.materialize label_map with
    | some (.Flexible _ instruction_word arg1 arg2) =>
      some (write_instruction_word instruction_word arg1 arg2)
    | _ => none

/-- The emit pass of `assemble`. -/
def emitPass : List MaterializedInstruction → LabelMap → Option (List Word)
  | [], _ => some []
  | entry :: rest, m =>
    match write_materialized_instruction entry m with
    | some ws =>
      match emitPass rest m with
      | some rest' => some (ws ++ rest')
      | none => none
    | none => none

/-- The size-resolution pipeline of `assemble` (everything before the emit
pass), returning the fixed-point instruction list and the final label map.
The unbounded Rust `loop` is given fuel `2 * N + 2`; the C3 theorem proves
this fuel suffices and that the result is a genuine fixed point. -/
def resolvePipeline (tokens : List MetaInstruction) :
    Option (List MaterializedInstruction × LabelMap) :=
  match prescanLabels tokens [] with
  | some m0 =>
    match firstPass tokens m0 0 with
    | some (instructions, m1) =>
      fixpointLoop (2 * instructions.length + 2) instructions m1
    | none => none
  | none => none

/-- `assemble` (`src/src/assembler.rs`), from the meta-instruction token
stream (the textual front end of §6.2 is out of scope per §1). -/
def assemble (tokens : List MetaInstruction) : Option (List Word) :=
  match resolvePipeline tokens with
  | some (instructions, label_map) => emitPass instructions label_map
  | none => none

/-- Substitution of the final label addresses into an abstract instruction:
what "the original abstract instruction list with each label reference
resolved to the final address the resolver assigned" denotes. -/
def substValue (m : LabelMap) : Value → Option Value
  | .Static arg => some (.Static arg)
  | .LabelReference l => (m.lookup l).map fun address => .Static (.Literal address)

/-- Label substitution over an instruction (see `substValue`). -/
def substInstruction (m : LabelMap) : Instruction → Option Instruction
  | .BasicInstruction op a b =>
    match substValue m a, substValue m b with
    | some a', some b' => some (.BasicInstruction op a' b')
    | _, _ => none
  | .NonBasicInstruction op a =>
    (substValue m a).map fun a' => .NonBasicInstruction op a'

/-- The instructions of a token stream (labels dropped). -/
def instructionsOf : List MetaInstruction → List Instruction
  | [] => []
  | .Instruction i :: rest => i :: instructionsOf rest
  | .Label _ :: rest => instructionsOf rest

/-- Decoder side of the round-trip: map a decoded operand slot and its
extra word (when demanded) back to an abstract argument (§4.1 read in
reverse). -/
def argFromDef : Dec.InstructionArgumentDefinition → Option Word →
    Option InstructionArgument
  | .Register r, none => some (.Register r)
  | .AtAddressFromRegister r, none => some (.AddressFromRegister r)
  | .AtAddressFromNextWordPlusRegister r, some w => some (.AddressOffset w r)
  | .Pop, none => some (.StackOperation .Pop)
  | .Peek, none => some (.StackOperation .Peek)
  | .Push, none => some (.StackOperation .Push)
  | .OfStackPointer, none => some (.SpecialRegister .StackPointer)
  | .OfProgramCounter, none => some (.SpecialRegister .ProgramCounter)
  | .OfOverflow, none => some (.SpecialRegister .Overflow)
  | .AtAddressFromNextWord, some w => some (.Address w)
  | .NextWordLiteral, some w => some (.Literal w)
  | .Literal v, none => some (.Literal v)
  | _, _ => none

/-- The basic mnemonic of a decoded instruction word, with its two operand
slots (§4.2's table read in reverse). -/
def basicOfWord : Dec.InstructionWord →
    Option (BasicOperationName × Dec.InstructionArgumentDefinition ×
            Dec.InstructionArgumentDefinition)
  | .Set a b => some (.SET, a, b)
  | .Add a b => some (.ADD, a, b)
  | .Sub a b => some (.SUB, a, b)
  | .Mul a b => some (.MUL, a, b)
  | .Div a b => some (.DIV, a, b)
  | .Mod a b => some (.MOD, a, b)
  | .Shl a b => some (.SHL, a, b)
  | .Shr a b => some (.SHR, a, b)
  | .And a b => some (.AND, a, b)
  | .Bor a b => some (.BOR, a, b)
  | .Xor a b => some (.XOR, a, b)
  | .Ife a b => some (.IFE, a, b)
  | .Ifn a b => some (.IFN, a, b)
  | .Ifg a b => some (.IFG, a, b)
  | .Ifb a b => some (.IFB, a, b)
  | .NonBasic _ => none

/-- Take the extra word demanded by an operand slot off the stream (fetch
order: `a`'s extra word before `b`'s). -/
def takeExtra (d : Dec.InstructionArgumentDefinition) (rest : List Word) :
    Option (Option Word × List Word) :=
  if d.num_extra_words = 1 then
    match rest with
    | e :: rest' => some (some e, rest')
    | [] => none
  else some (none, rest)

/-- Decode one instruction (word plus demanded extra words) from the
stream, yielding the abstract instruction it denotes. -/
def decodeInstr (w : Word) (rest : List Word) : Option (Instruction × List Word) :=
  match Dec.InstructionWord.fromWord w with
  | some (.NonBasic (.Jsr d)) =>
    match takeExtra d rest with
    | some (e, rest') =>
      match argFromDef d e with
      | some arg => some (.NonBasicInstruction .JSR (.Static arg), rest')
      | none => none
    | none => none
  | some iw =>
    match basicOfWord iw with
    | some (op, a, b) =>
      match takeExtra a rest with
      | some (ea, rest1) =>
        match takeExtra b rest1 with
        | some (eb, rest2) =>
          match argFromDef a ea, argFromDef b eb with
          | some arga, some argb =>
            some (.BasicInstruction op (.Static arga) (.Static argb), rest2)
          | _, _ => none
        | none => none
      | none => none
    | none => none
  | none => none

/-- Decode a whole word stream into the abstract instruction list (fuelled
by the stream length: every instruction consumes at least one word). -/
def decodeWordsAux : Nat → List Word → Option (List Instruction)
  | _, [] => some []
  | 0, _ :: _ => none
  | fuel + 1, w :: rest =>
    match decodeInstr w rest with
    | some (i, rest') =>
      match decodeWordsAux fuel rest' with
      | some l => some (i :: l)
      | none => none
    | none => none

/-- Decode an emitted program image back into abstract instructions. -/
def decodeProgram (ws : List Word) : Option (List Instruction) :=
  decodeWordsAux ws.length ws

/-- The abstract instruction recorded inside a materialized entry. -/
def MaterializedInstruction.instruction : MaterializedInstruction → Instruction
  | .Static i _ _ _ => i
  | .Flexible i _ _ _ => i

/-- Whether a materialized entry is flexible. -/
def MaterializedInstruction.isFlexible : MaterializedInstruction → Prop
  | .Static _ _ _ _ => False
  | .Flexible _ _ _ _ => True

/-- Total length in words of a materialized instruction list. -/
def totalLen (l : List MaterializedInstruction) : Nat :=
  (l.map MaterializedInstruction.len).sum

/-- Pointwise domination of label maps: same keys, values nondecreasing. -/
def mapLE (m m' : LabelMap) : Prop :=
  ∀ l : String, (m.lookup l = none ∧ m'.lookup l = none) ∨
    ∃ v v', m.lookup l = some v ∧ m'.lookup l = some v' ∧ v ≤ v'

/-- The optimism invariant of the size resolver: every flexible entry's
recorded length is at most the length of its re-materialization against
the current map (and the re-materialization succeeds). -/
def OPT (l : List MaterializedInstruction) (m : LabelMap) : Prop :=
  ∀ e ∈ l, e.isFlexible →
    ∃ e', e.instruction.materialize m = some e' ∧ e.len ≤ e'.len

/-- Every entry is a materialization of its recorded abstract instruction
(against some map). -/
def MATINV (l : List MaterializedInstruction) : Prop :=
  ∀ e ∈ l, ∃ mm : LabelMap, e.instruction.materialize mm = some e

/-- Labels defined by a token stream, in order. -/
def labelsOf : List MetaInstruction → List String
  | [] => []
  | .Instruction _ :: rest => labelsOf rest
  | .Label l :: rest => l :: labelsOf rest

/-- Label references of a value. -/
def Value.refs : Value → List String
  | .Static _ => []
  | .LabelReference l => [l]

/-- Label references of an instruction. -/
def Instruction.refs : Instruction → List String
  | .BasicInstruction _ a b => a.refs ++ b.refs
  | .NonBasicInstruction _ a => a.refs

/-- Label references of a token stream. -/
def refsOf : List MetaInstruction → List String
  | [] => []
  | .Instruction i :: rest => i.refs ++ refsOf rest
  | .Label _ :: rest => refsOf rest

/-- The left operand of a basic instruction is not a label reference
(the assembler treats that as a fatal error). -/
def lhsStatic : Instruction → Prop
  | .BasicInstruction _ (.Static _) _ => True
  | .BasicInstruction _ (.LabelReference _) _ => False
  | .NonBasicInstruction _ _ => True

/-- A valid source program for the assembler: unique label definitions,
no undefined references, static left operands, and a total size that fits
a 16-bit address space even when every instruction takes its longest
(three-word) form. -/
def WF (tokens : List MetaInstruction) : Prop :=
  (labelsOf tokens).Nodup ∧
  (∀ l ∈ refsOf tokens, l ∈ labelsOf tokens) ∧
  (∀ i ∈ instructionsOf tokens, lhsStatic i) ∧
  3 * (instructionsOf tokens).length ≤ 65535

/-- The decoded-instruction-word constructor belonging to a basic
mnemonic (the inverse direction of `basicOfWord`). -/
def basicWordOf : BasicOperationName → Dec.InstructionArgumentDefinition →
    Dec.InstructionArgumentDefinition → Dec.InstructionWord
  | .SET, a, b => .Set a b
  | .ADD, a, b => .Add a b
  | .SUB, a, b => .Sub a b
  | .MUL, a, b => .Mul a b
  | .DIV, a, b => .Div a b
  | .MOD, a, b => .Mod a b
  | .SHL, a, b => .Shl a b
  | .SHR, a, b => .Shr a b
  | .AND, a, b => .And a b
  | .BOR, a, b => .Bor a b
  | .XOR, a, b => .Xor a b
  | .IFE, a, b => .Ife a b
  | .IFN, a, b => .Ifn a b
  | .IFG, a, b => .Ifg a b
  | .IFB, a, b => .Ifb a b

/-- Label substitution over a whole instruction list (see
`substInstruction`): the decode target of the round trip. -/
def substProgram (m : LabelMap) : List Instruction → Option (List Instruction)
  | [] => some []
  | i :: rest =>
    match substInstruction m i, substProgram m rest with
    | some i', some rest' => some (i' :: rest')
    | _, _ => none

/-- A small concrete token stream with a label definition and forward and
backward references to it. -/
def c3tokens : List MetaInstruction :=
  [.Instruction (.BasicInstruction .SET (.Static (.Register .A))
      (.LabelReference "end")),
   .Label "end",
   .Instruction (.NonBasicInstruction .JSR (.LabelReference "end"))]

end Asm

-- ===================== THEOREMS =====================

namespace Emu

theorem read_word_and_advance_pc_pp {s s' : DCPU16} {w : Word}
    (h : s.read_word_and_advance_pc = some (w, s')) :
    s'.previous_program_counter = s.previous_program_counter ∧ s'.program = s.program := by
  unfold DCPU16.read_word_and_advance_pc at h
  cases hg : s.program.get? s.program_counter <;> rw [hg] at h
  · exact absurd h (by simp)
  · simp only [Option.some.injEq, Prod.mk.injEq] at h
    obtain ⟨-, h2⟩ := h
    subst h2
    exact ⟨rfl, rfl⟩

theorem interpret_address_pp {s s' : DCPU16} {v : Value} {a : Address}
    (h : s.interpret_address v = some (s', a)) :
    s'.previous_program_counter = s.previous_program_counter ∧ s'.program = s.program := by
  cases v with
  | Register r =>
    simp only [DCPU16.interpret_address, Option.some.injEq, Prod.mk.injEq] at h
    obtain ⟨h1, -⟩ := h; subst h1; exact ⟨rfl, rfl⟩
  | AtAddressFromRegister r =>
    simp only [DCPU16.interpret_address, Option.some.injEq, Prod.mk.injEq] at h
    obtain ⟨h1, -⟩ := h; subst h1; exact ⟨rfl, rfl⟩
  | AtAddressFromNextWordPlusRegister r =>
    simp only [DCPU16.interpret_address] at h
    cases hr : s.read_word_and_advance_pc with
    | none => rw [hr] at h; exact absurd h (by simp)
    | some p =>
      obtain ⟨w, s1⟩ := p
      rw [hr] at h
      simp only [Option.some.injEq, Prod.mk.injEq] at h
      obtain ⟨h1, -⟩ := h; subst h1
      exact read_word_and_advance_pc_pp hr
  | Pop =>
    simp only [DCPU16.interpret_address, Option.some.injEq, Prod.mk.injEq] at h
    obtain ⟨h1, -⟩ := h; subst h1; exact ⟨rfl, rfl⟩
  | Peek =>
    simp only [DCPU16.interpret_address, Option.some.injEq, Prod.mk.injEq] at h
    obtain ⟨h1, -⟩ := h; subst h1; exact ⟨rfl, rfl⟩
  | Push =>
    simp only [DCPU16.interpret_address, Option.some.injEq, Prod.mk.injEq] at h
    obtain ⟨h1, -⟩ := h; subst h1; exact ⟨rfl, rfl⟩
  | OfStackPointer =>
    simp only [DCPU16.interpret_address, Option.some.injEq, Prod.mk.injEq] at h
    obtain ⟨h1, -⟩ := h; subst h1; exact ⟨rfl, rfl⟩
  | OfProgramCounter =>
    simp only [DCPU16.interpret_address, Option.some.injEq, Prod.mk.injEq] at h
    obtain ⟨h1, -⟩ := h; subst h1; exact ⟨rfl, rfl⟩
  | OfOverflow =>
    simp only [DCPU16.interpret_address, Option.some.injEq, Prod.mk.injEq] at h
    obtain ⟨h1, -⟩ := h; subst h1; exact ⟨rfl, rfl⟩
  | AtAddressFromNextWord =>
    simp only [DCPU16.interpret_address] at h
    cases hr : s.read_word_and_advance_pc with
    | none => rw [hr] at h; exact absurd h (by simp)
    | some p =>
      obtain ⟨w, s1⟩ := p
      rw [hr] at h
      simp only [Option.some.injEq, Prod.mk.injEq] at h
      obtain ⟨h1, -⟩ := h; subst h1
      exact read_word_and_advance_pc_pp hr
  | NextWordLiteral =>
    simp only [DCPU16.interpret_address] at h
    cases hr : s.read_word_and_advance_pc with
    | none => rw [hr] at h; exact absurd h (by simp)
    | some p =>
      obtain ⟨w, s1⟩ := p
      rw [hr] at h
      simp only [Option.some.injEq, Prod.mk.injEq] at h
      obtain ⟨h1, -⟩ := h; subst h1
      exact read_word_and_advance_pc_pp hr
  | Literal v =>
    simp only [DCPU16.interpret_address, Option.some.injEq, Prod.mk.injEq] at h
    obtain ⟨h1, -⟩ := h; subst h1; exact ⟨rfl, rfl⟩

theorem resolve_address_pp {s s' : DCPU16} {v : Value} {a : Address} {w : Word}
    (h : s.resolve_address v = some (s', a, w)) :
    s'.previous_program_counter = s.previous_program_counter ∧ s'.program = s.program := by
  unfold DCPU16.resolve_address at h
  cases hi : s.interpret_address v with
  | none => rw [hi] at h; exact absurd h (by simp)
  | some p =>
    obtain ⟨s1, addr⟩ := p
    rw [hi] at h
    simp only [Option.some.injEq, Prod.mk.injEq] at h
    obtain ⟨h1, -⟩ := h; subst h1
    exact interpret_address_pp hi

theorem resolve_1op_pp {s s' : DCPU16} {w : Word} {i : Instruction} {a : Value}
    {iwo : InstructionWithOperands}
    (h : InstructionWithOperands.resolve_1op s w i a = some (s', iwo)) :
    s'.previous_program_counter = s.previous_program_counter ∧ s'.program = s.program := by
  unfold InstructionWithOperands.resolve_1op at h
  cases hr : s.resolve_address a with
  | none => rw [hr] at h; exact absurd h (by simp)
  | some p =>
    obtain ⟨s1, addr, v⟩ := p
    rw [hr] at h
    simp only [Option.some.injEq, Prod.mk.injEq] at h
    obtain ⟨h1, -⟩ := h; subst h1
    exact resolve_address_pp hr

theorem resolve_2op_pp {s s' : DCPU16} {w : Word} {i : Instruction} {a b : Value}
    {iwo : InstructionWithOperands}
    (h : InstructionWithOperands.resolve_2op s w i a b = some (s', iwo)) :
    s'.previous_program_counter = s.previous_program_counter ∧ s'.program = s.program := by
  unfold InstructionWithOperands.resolve_2op at h
  cases hr : s.resolve_address a with
  | none => rw [hr] at h; exact absurd h (by simp)
  | some p =>
    obtain ⟨s1, addr1, v1⟩ := p
    rw [hr] at h
    simp only [] at h
    cases hr2 : s1.resolve_address b with
    | none => rw [hr2] at h; exact absurd h (by simp)
    | some q =>
      obtain ⟨s2, addr2, v2⟩ := q
      rw [hr2] at h
      simp only [Option.some.injEq, Prod.mk.injEq] at h
      obtain ⟨h1, -⟩ := h; subst h1
      obtain ⟨p1, p2⟩ := resolve_address_pp hr2
      obtain ⟨q1, q2⟩ := resolve_address_pp hr
      exact ⟨p1.trans q1, p2.trans q2⟩

theorem read_instruction_pp {s s' : DCPU16} {iwo : InstructionWithOperands}
    (h : s.read_instruction = some (s', iwo)) :
    s'.previous_program_counter = s.previous_program_counter ∧ s'.program = s.program := by
  unfold DCPU16.read_instruction at h
  cases hr : s.read_word_and_advance_pc with
  | none => rw [hr] at h; exact absurd h (by simp)
  | some p =>
    obtain ⟨w, s1⟩ := p
    rw [hr] at h
    simp only [] at h
    obtain ⟨hp1, hp2⟩ := read_word_and_advance_pc_pp hr
    cases hi : Instruction.fromWord w with
    | none => rw [hi] at h; exact absurd h (by simp)
    | some instr =>
      rw [hi] at h
      cases instr with
      | NonBasic nbi =>
        cases nbi with
        | Reserved => exact absurd h (by simp)
        | Jsr a =>
          obtain ⟨q1, q2⟩ := resolve_1op_pp h
          exact ⟨q1.trans hp1, q2.trans hp2⟩
      | Set a b =>
        obtain ⟨q1, q2⟩ := resolve_2op_pp h; exact ⟨q1.trans hp1, q2.trans hp2⟩
      | Add a b =>
        obtain ⟨q1, q2⟩ := resolve_2op_pp h; exact ⟨q1.trans hp1, q2.trans hp2⟩
      | Sub a b =>
        obtain ⟨q1, q2⟩ := resolve_2op_pp h; exact ⟨q1.trans hp1, q2.trans hp2⟩
      | Mul a b =>
        obtain ⟨q1, q2⟩ := resolve_2op_pp h; exact ⟨q1.trans hp1, q2.trans hp2⟩
      | Div a b =>
        obtain ⟨q1, q2⟩ := resolve_2op_pp h; exact ⟨q1.trans hp1, q2.trans hp2⟩
      | Mod a b =>
        obtain ⟨q1, q2⟩ := resolve_2op_pp h; exact ⟨q1.trans hp1, q2.trans hp2⟩
      | Shl a b =>
        obtain ⟨q1, q2⟩ := resolve_2op_pp h; exact ⟨q1.trans hp1, q2.trans hp2⟩
      | Shr a b =>
        obtain ⟨q1, q2⟩ := resolve_2op_pp h; exact ⟨q1.trans hp1, q2.trans hp2⟩
      | And a b =>
        obtain ⟨q1, q2⟩ := resolve_2op_pp h; exact ⟨q1.trans hp1, q2.trans hp2⟩
      | Bor a b =>
        obtain ⟨q1, q2⟩ := resolve_2op_pp h; exact ⟨q1.trans hp1, q2.trans hp2⟩
      | Xor a b =>
        obtain ⟨q1, q2⟩ := resolve_2op_pp h; exact ⟨q1.trans hp1, q2.trans hp2⟩
      | Ife a b =>
        obtain ⟨q1, q2⟩ := resolve_2op_pp h; exact ⟨q1.trans hp1, q2.trans hp2⟩
      | Ifn a b =>
        obtain ⟨q1, q2⟩ := resolve_2op_pp h; exact ⟨q1.trans hp1, q2.trans hp2⟩
      | Ifg a b =>
        obtain ⟨q1, q2⟩ := resolve_2op_pp h; exact ⟨q1.trans hp1, q2.trans hp2⟩
      | Ifb a b =>
        obtain ⟨q1, q2⟩ := resolve_2op_pp h; exact ⟨q1.trans hp1, q2.trans hp2⟩

theorem store_value_pp (s : DCPU16) (a : Address) (v : Word) :
    (s.store_value a v).previous_program_counter = s.previous_program_counter ∧
      (s.store_value a v).program = s.program := by
  cases a <;> exact ⟨rfl, rfl⟩

theorem skip_instruction_pp {s s' : DCPU16} (h : s.skip_instruction = some s') :
    s'.previous_program_counter = s.previous_program_counter ∧ s'.program = s.program := by
  unfold DCPU16.skip_instruction at h
  cases hr : s.read_instruction with
  | none => rw [hr] at h; exact absurd h (by simp)
  | some p =>
    obtain ⟨s1, iwo⟩ := p
    rw [hr] at h
    simp only [Option.some.injEq] at h
    subst h
    exact read_instruction_pp hr

theorem execute_pp {s s' : DCPU16} {iwo : InstructionWithOperands}
    (h : s.execute iwo = some s') :
    s'.previous_program_counter = s.previous_program_counter ∧ s'.program = s.program := by
  unfold DCPU16.execute at h
  split at h <;>
    (try simp only [] at h) <;>
    (try split at h) <;>
    (try simp only [] at h) <;>
    (try split at h) <;>
    (try split at h) <;>
    first
      | (simp only [Option.some.injEq] at h; subst h;
         exact ⟨(store_value_pp _ _ _).1, (store_value_pp _ _ _).2⟩)
      | (simp only [Option.some.injEq] at h; subst h; exact ⟨rfl, rfl⟩)
      | exact skip_instruction_pp h
      | simp at h

theorem step_shape {s r : DCPU16} {b : Bool} (h : s.step = some (r, b)) :
    r.previous_program_counter = s.program_counter ∧ r.program = s.program ∧
      (b = false ↔ (r.program_counter = s.program_counter ∨
                    r.program.length ≤ r.program_counter)) := by
  unfold DCPU16.step at h
  simp only [] at h
  cases hr : DCPU16.read_instruction
      { s with previous_program_counter := s.program_counter } with
  | none => rw [hr] at h; exact absurd h (by simp)
  | some p =>
    obtain ⟨s1, iwo⟩ := p
    rw [hr] at h
    simp only [] at h
    cases he : s1.execute iwo with
    | none => rw [he] at h; exact absurd h (by simp)
    | some s2 =>
      rw [he] at h
      simp only [] at h
      obtain ⟨e1, e2⟩ := execute_pp he
      obtain ⟨r1, r2⟩ := read_instruction_pp hr
      have hprev : s2.previous_program_counter = s.program_counter := by rw [e1, r1]
      have hprog : s2.program = s.program := by rw [e2, r2]
      split at h
      case isTrue hc =>
        simp only [Option.some.injEq, Prod.mk.injEq] at h
        obtain ⟨hh1, hh2⟩ := h
        subst hh1
        subst hh2
        refine ⟨hprev, hprog, ?_⟩
        simp only [true_iff]
        exact Or.inl (hc.symm.trans hprev)
      case isFalse hc =>
        simp only [Option.some.injEq, Prod.mk.injEq] at h
        obtain ⟨hh1, hh2⟩ := h
        subst hh1
        subst hh2
        refine ⟨hprev, hprog, ?_⟩
        constructor
        · intro hb
          simp only [decide_eq_false_iff_not, Nat.not_lt] at hb
          exact Or.inr hb
        · intro hor
          rcases hor with hor | hor
          · exact absurd (hprev.trans hor.symm) hc
          · simp only [decide_eq_false_iff_not, Nat.not_lt]
            exact hor

/-- C1. The claim states that `SmallLiteral(v)` resolves to a literal site
whose read value is `v` and that stores to a `SmallLiteral` destination have
no observable effect. The code instead resolves `Value::Literal { value }`
to the RAM site `Address::Address(value)`: the read is a RAM lookup and a
store to a `SmallLiteral` destination writes RAM. Concretely, running
`SET A, 5; SET 0x00, A` (image `[0x7c01, 0x0005, 0x0201]`) on a fresh CPU
leaves `RAM[0] = 5`. -/
theorem C1_small_literal_is_ram_site :
    (∀ (s : DCPU16) (v : Word), s.interpret_address (.Literal v) = some (s, .Address v)) ∧
    (∀ (s : DCPU16) (v : Word), s.read_value (.Address v) = s.ram v) ∧
    (∀ (s : DCPU16) (v x : Word), (s.store_value (.Address v) x).ram v = x) ∧
    ((DCPU16.new [0x7c01, 0x0005, 0x0201]).bind (DCPU16.run 3)).map (fun s => s.ram 0) =
      some 5 := by
  refine ⟨fun s v => rfl, fun s v => rfl, fun s v x => ?_, ?_⟩
  · simp [DCPU16.store_value]
  · rfl

/-- C2. The claim (and the repository's own `sample.rs` assertions) expects
the sample image to terminate with `A = 0x2000` and `X = 0x40`. Under the
code's literal handling the `IFN A, 0x10` test at address 7 compares `A`
against `RAM[0x10] = 0` instead of the literal `0x10`, so the branch to the
final crash loop is taken immediately: the run terminates with
`PC = 0x1A`, `A = 0x10`, `X = 0`, `RAM[0x1000] = 0x20` (and
`RAM[0x2000+k] = RAM[0x2000] = 0` holds only vacuously). -/
theorem C2_sample_program_result :
    ((DCPU16.new sampleProgram).bind (DCPU16.run 10)).map
        (fun s => (s.program_counter, s.registers Register.A.toIndex,
                   s.registers Register.X.toIndex, s.ram 0x1000, s.ram 0x2000)) =
      some (0x1a, 0x10, 0, 0x20, 0) := by
  rfl

/-- C4. `step()` returns `false` exactly when the post-step PC equals the
pre-step PC or lies at/past the end of the program image; consequently a
two-word `SET PC, X` (word `0x7dc1` followed by `X`) located at address `X`
makes `step` return `false` with final PC `X`, and `run` terminates there. -/
theorem C4_step_termination :
    (∀ (s r : DCPU16) (b : Bool), s.step = some (r, b) →
      (b = false ↔ (r.program_counter = s.program_counter ∨
                    r.program.length ≤ r.program_counter))) ∧
    (∀ (X : Nat) (s : DCPU16), s.program.length < 65535 → s.program_counter = X →
      s.program.get? X = some 0x7dc1 → s.program.get? (X + 1) = some X →
      ∃ r, s.step = some (r, false) ∧ r.program_counter = X ∧ s.run 1 = some r) := by
  constructor
  · intro s r b h
    exact (step_shape h).2.2
  · intro X s hlen hpc h1 h2
    have hX1 : X + 1 < s.program.length := (List.get?_eq_some.mp h2).1
    have hX1m : (X + 1) % 65536 = X + 1 := Nat.mod_eq_of_lt (by omega)
    have h2' : s.program[X + 1]? = some X := by
      rw [← List.get?_eq_getElem?]; exact h2
    have hstep : s.step = some
        ({ s with previous_program_counter := X,
                  program_counter := X }, false) := by
      unfold DCPU16.step DCPU16.read_instruction DCPU16.read_word_and_advance_pc
      simp only [hpc, h1]
      norm_num [Instruction.fromWord, Value.fromWord, Register.fromWord,
        InstructionWithOperands.resolve_2op, DCPU16.resolve_address,
        DCPU16.interpret_address, DCPU16.read_value, DCPU16.execute,
        DCPU16.store_value, DCPU16.read_word_and_advance_pc, hX1m, h2, h2']
    exact ⟨_, hstep, rfl, by rw [DCPU16.run, hstep]⟩

/-- Witness for C4, at the state `c4state` (a `SET PC, 0` at address 0). -/
theorem C4_step_termination_witness :
    ((false = false) ↔ ((0 : Nat) = 0 ∨ (2 : Nat) ≤ 0)) ∧
    (∃ r, c4state.step = some (r, false) ∧ r.program_counter = 0 ∧ c4state.run 1 = some r) :=
  ⟨C4_step_termination.1 c4state _ false rfl,
   C4_step_termination.2 0 c4state (by decide) rfl rfl rfl⟩

/-- C5. All stack-pointer updates and effective-address arithmetic during
operand resolution wrap modulo 2^16: `Pop` post-increments SP mod 2^16,
`Push` pre-decρements SP mod 2^16, a `JSR` decrements SP mod 2^16, and
`AtRegPlusNext` addresses RAM at `(extra + registers[r]) mod 2^16`,
without failing. -/
theorem C5_wrapping_arithmetic :
    (∀ s : DCPU16, s.interpret_address .Pop =
        some ({ s with stack_pointer := (s.stack_pointer + 1) % 65536 },
              .Address s.stack_pointer)) ∧
    (∀ s : DCPU16, s.interpret_address .Push =
        some ({ s with stack_pointer := (s.stack_pointer + 65536 - 1) % 65536 },
              .Address ((s.stack_pointer + 65536 - 1) % 65536))) ∧
    (∀ (s : DCPU16) (r : Register) (w : Word), s.program.get? s.program_counter = some w →
      s.interpret_address (.AtAddressFromNextWordPlusRegister r) =
        some ({ s with program_counter := (s.program_counter + 1) % 65536 },
              .Address ((w + s.registers r.toIndex) % 65536))) ∧
    (∀ s : DCPU16, s.program.get? s.program_counter = some 0x0010 →
      ∃ r c, s.step = some (r, c) ∧
        r.stack_pointer = (s.stack_pointer + 65536 - 1) % 65536) := by
  have hsub : ∀ n : Nat, n + 65536 - 1 = n + 65535 := fun n => by omega
  refine ⟨fun s => rfl, fun s => ?_, ?_, ?_⟩
  · simp only [DCPU16.interpret_address, hsub]
  · intro s r w h
    simp only [DCPU16.interpret_address, DCPU16.read_word_and_advance_pc, h]
  · intro s h
    have hstep : s.step = some
        ({ s with previous_program_counter := s.program_counter
                  program_counter := s.registers Register.A.toIndex
                  stack_pointer := (s.stack_pointer + 65535) % 65536
                  ram := Function.update s.ram ((s.stack_pointer + 65535) % 65536)
                    ((s.program_counter + 1) % 65536) },
          if s.program_counter = s.registers Register.A.toIndex then false
          else decide (s.registers Register.A.toIndex < s.program.length)) := by
      unfold DCPU16.step DCPU16.read_instruction DCPU16.read_word_and_advance_pc
      simp only [h]
      norm_num [Instruction.fromWord, Value.fromWord, Register.fromWord,
        InstructionWithOperands.resolve_1op, DCPU16.resolve_address,
        DCPU16.interpret_address, DCPU16.read_value, DCPU16.execute,
        Register.toIndex]
      split <;> simp_all
    refine ⟨_, _, hstep, ?_⟩
    simp only [hsub]

/-- Witness for C5, reading the extra word of `[0x20+A]` from `c4state`
and stepping the `JSR A` state `c5state` (whose SP is 0). -/
theorem C5_wrapping_arithmetic_witness :
    (c4state.interpret_address (.AtAddressFromNextWordPlusRegister .A) =
      some ({ c4state with program_counter := 1 }, .Address 0x7dc1)) ∧
    (∃ r c, c5state.step = some (r, c) ∧
      r.stack_pointer = (c5state.stack_pointer + 65536 - 1) % 65536) := by
  constructor
  · exact C5_wrapping_arithmetic.2.2.1 c4state .A 0x7dc1 rfl
  · exact C5_wrapping_arithmetic.2.2.2 c5state rfl

/-- C6 counterexample. Executing `SHL A, 16` with `A = 1` stores `1` at
`A`'s site (the Rust `u16` shift masks the shift amount), not
`(1 << 16) & 0xFFFF = 0` as the claim requires for `Rb ≥ 16`. -/
theorem C6_cex_shl_16 :
    (shlState.step).map (fun p => p.1.registers 0) = some 1 ∧ (1 <<< 16) % 65536 = 0 :=
  ⟨rfl, rfl⟩

/-- C6 amended: for shift amounts `Rb < 16` the claimed semantics hold:
`SHL` stores `(La << Rb) & 0xFFFF` and sets `O = ((La << Rb) >> 16) &
0xFFFF`; `SHR` stores `La >> Rb` and sets `O = ((La << 16) >> Rb) &
0xFFFF`; the 32-bit intermediates lose no precision and the step does not
fail. -/
theorem C6_shift_semantics :
    (∀ (a b : Nat) (s : DCPU16), a < 65536 → b < 16 →
      s.program = [0x7c07, b] → s.program_counter = 0 → s.registers 0 = a →
      ∃ r c, s.step = some (r, c) ∧ r.registers 0 = (a <<< b) % 65536 ∧
        r.overflow = ((a <<< b) >>> 16) % 65536) ∧
    (∀ (a b : Nat) (s : DCPU16), a < 65536 → b < 16 →
      s.program = [0x7c08, b] → s.program_counter = 0 → s.registers 0 = a →
      ∃ r c, s.step = some (r, c) ∧ r.registers 0 = a >>> b ∧
        r.overflow = ((a <<< 16) >>> b) % 65536) := by
  have hb16 : ∀ b : Nat, b < 16 → b % 16 = b := fun b hb => Nat.mod_eq_of_lt hb
  have hb32 : ∀ b : Nat, b < 16 → b % 32 = b := fun b hb => Nat.mod_eq_of_lt (by omega)
  have hshl_lt : ∀ a b : Nat, a < 65536 → b < 16 → a <<< b < 4294967296 := by
    intro a b ha hb
    have h2 : (2 : Nat) ^ b ≤ 2 ^ 15 := Nat.pow_le_pow_right (by norm_num) (by omega)
    calc a <<< b = a * 2 ^ b := Nat.shiftLeft_eq a b
    _ ≤ a * 2 ^ 15 := Nat.mul_le_mul_left a h2
    _ ≤ 65535 * 2 ^ 15 := Nat.mul_le_mul_right _ (by omega)
    _ < 4294967296 := by norm_num
  have hshl16_lt : ∀ a : Nat, a < 65536 → a <<< 16 < 4294967296 := by
    intro a ha
    calc a <<< 16 = a * 2 ^ 16 := Nat.shiftLeft_eq a 16
    _ ≤ 65535 * 2 ^ 16 := Nat.mul_le_mul_right _ (by omega)
    _ < 4294967296 := by norm_num
  constructor
  · intro a b s ha hb hprog hpc hreg
    have hstep : s.step = some
        ({ s with previous_program_counter := 0
                  program_counter := 2
                  registers := Function.update s.registers 0 ((a <<< b) % 65536)
                  overflow := ((a <<< b) >>> 16) % 65536 }, false) := by
      unfold DCPU16.step DCPU16.read_instruction DCPU16.read_word_and_advance_pc
      norm_num [hprog, hpc, hreg, Instruction.fromWord, Value.fromWord, Register.fromWord,
        InstructionWithOperands.resolve_2op, DCPU16.resolve_address,
        DCPU16.interpret_address, DCPU16.read_value, DCPU16.execute,
        DCPU16.store_value, DCPU16.read_word_and_advance_pc, Register.toIndex]
      simp only [List.getElem_cons_succ, List.getElem_cons_zero, hb16 b hb, hb32 b hb]
      rw [Nat.mod_eq_of_lt (hshl_lt a b ha hb)]
      exact ⟨trivial, rfl⟩
    refine ⟨_, _, hstep, rfl, rfl⟩
  · intro a b s ha hb hprog hpc hreg
    have hstep : s.step = some
        ({ s with previous_program_counter := 0
                  program_counter := 2
                  registers := Function.update s.registers 0 (a >>> b)
                  overflow := ((a <<< 16) >>> b) % 65536 }, false) := by
      unfold DCPU16.step DCPU16.read_instruction DCPU16.read_word_and_advance_pc
      norm_num [hprog, hpc, hreg, Instruction.fromWord, Value.fromWord, Register.fromWord,
        InstructionWithOperands.resolve_2op, DCPU16.resolve_address,
        DCPU16.interpret_address, DCPU16.read_value, DCPU16.execute,
        DCPU16.store_value, DCPU16.read_word_and_advance_pc, Register.toIndex]
      simp only [List.getElem_cons_succ, List.getElem_cons_zero, hb16 b hb, hb32 b hb]
      rw [Nat.mod_eq_of_lt (hshl16_lt a ha)]
      exact ⟨trivial, rfl⟩
    refine ⟨_, _, hstep, rfl, rfl⟩

/-- Witness for C6, at `SHL A, 5` and `SHR A, 5` with `A = 3`. -/
theorem C6_shift_semantics_witness :
    (∃ r c, c6shlState.step = some (r, c) ∧ r.registers 0 = (3 <<< 5) % 65536 ∧
      r.overflow = ((3 <<< 5) >>> 16) % 65536) ∧
    (∃ r c, c6shrState.step = some (r, c) ∧ r.registers 0 = 3 >>> 5 ∧
      r.overflow = ((3 <<< 16) >>> 5) % 65536) :=
  ⟨C6_shift_semantics.1 3 5 c6shlState (by norm_num) (by norm_num) rfl rfl rfl,
   C6_shift_semantics.2 3 5 c6shrState (by norm_num) (by norm_num) rfl rfl rfl⟩

/-- C7 counterexample. The constructor asserts
`program.len() < u16::MAX as usize`, i.e. `< 65535`: an image of 65535
words — strictly shorter than 2^16 — is rejected, contradicting the claim
that every image of length < 65536 is accepted. -/
theorem C7_cex_len_65535_rejected : DCPU16.new (List.replicate 65535 0) = none := by
  unfold DCPU16.new
  rw [List.length_replicate, if_neg (lt_irrefl 65535)]

/-- C7 amended: the constructor accepts exactly the images of length
< 65535 (`u16::MAX as usize`), and a fresh instance has all eight
registers 0, all RAM words 0, `PC = 0`, `O = 0` and `SP = 0xFFFF`. -/
theorem C7_new_initial_state :
    (∀ prog : List Word, prog.length < 65535 →
      ∃ s, DCPU16.new prog = some s ∧ (∀ i, s.registers i = 0) ∧ (∀ a, s.ram a = 0) ∧
        s.program_counter = 0 ∧ s.overflow = 0 ∧ s.stack_pointer = 0xffff ∧
        s.program = prog) ∧
    (∀ prog : List Word, 65535 ≤ prog.length → DCPU16.new prog = none) := by
  constructor
  · intro prog h
    unfold DCPU16.new
    rw [if_pos h]
    exact ⟨_, rfl, fun i => rfl, fun a => rfl, rfl, rfl, rfl, rfl⟩
  · intro prog h
    unfold DCPU16.new
    rw [if_neg (by omega)]

/-- Witness for C7, at a one-word image and at the 65535-word image. -/
theorem C7_new_initial_state_witness :
    (∃ s, DCPU16.new [7] = some s ∧ (∀ i, s.registers i = 0) ∧ (∀ a, s.ram a = 0) ∧
      s.program_counter = 0 ∧ s.overflow = 0 ∧ s.stack_pointer = 0xffff ∧
      s.program = [7]) ∧
    DCPU16.new (List.replicate 65535 0) = none :=
  ⟨C7_new_initial_state.1 [7] (by norm_num),
   C7_new_initial_state.2 (List.replicate 65535 0) (by rw [List.length_replicate])⟩

/-- C9. Operand `a` is resolved before operand `b` with stack effects in
that order, and `a`'s store happens after both resolutions: resolving
`Push` then `Pop` yields the same site `SP-1 mod 2^16` for both operands
and leaves SP unchanged, and a full `SET PUSH, POP` step stores the popped
value back at that site, leaving SP and RAM unchanged. -/
theorem C9_push_pop_ordering :
    (∀ s : DCPU16, s.stack_pointer < 65536 →
      ∃ s1, s.interpret_address .Push =
          some (s1, .Address ((s.stack_pointer + 65536 - 1) % 65536)) ∧
        s1.interpret_address .Pop =
          some ({ s1 with stack_pointer := s.stack_pointer },
                .Address ((s.stack_pointer + 65536 - 1) % 65536))) ∧
    (∀ s : DCPU16, s.program = [0x61a1] → s.program_counter = 0 → s.stack_pointer < 65536 →
      ∃ r, s.step = some (r, false) ∧ r.stack_pointer = s.stack_pointer ∧
        r.ram = s.ram ∧ r.program_counter = 1) := by
  have hsub : ∀ n : Nat, n + 65536 - 1 = n + 65535 := fun n => by omega
  constructor
  · intro s hsp
    have hsp1 : ((s.stack_pointer + 65535) % 65536 + 1) % 65536 = s.stack_pointer := by omega
    refine ⟨{ s with stack_pointer := (s.stack_pointer + 65535) % 65536 }, ?_, ?_⟩
    · simp only [DCPU16.interpret_address, hsub]
    · simp only [DCPU16.interpret_address, hsub, hsp1]
  · intro s hprog hpc hsp
    have hsp1 : ((s.stack_pointer + 65535) % 65536 + 1) % 65536 = s.stack_pointer := by omega
    have hstep : s.step = some
        ({ s with previous_program_counter := 0
                  program_counter := 1
                  stack_pointer := s.stack_pointer
                  ram := Function.update s.ram ((s.stack_pointer + 65535) % 65536)
                    (s.ram ((s.stack_pointer + 65535) % 65536)) }, false) := by
      unfold DCPU16.step DCPU16.read_instruction DCPU16.read_word_and_advance_pc
      norm_num [hprog, hpc, Instruction.fromWord, Value.fromWord, Register.fromWord,
        InstructionWithOperands.resolve_2op, DCPU16.resolve_address,
        DCPU16.interpret_address, DCPU16.read_value, DCPU16.execute,
        DCPU16.store_value, DCPU16.read_word_and_advance_pc]
      omega
    refine ⟨_, hstep, rfl, ?_, rfl⟩
    show Function.update s.ram ((s.stack_pointer + 65535) % 65536)
        (s.ram ((s.stack_pointer + 65535) % 65536)) = s.ram
    exact Function.update_eq_self ((s.stack_pointer + 65535) % 65536) s.ram

/-- Witness for C9, at the `SET PUSH, POP` state `c9state`. -/
theorem C9_push_pop_ordering_witness :
    (∃ s1, c9state.interpret_address .Push =
        some (s1, .Address ((c9state.stack_pointer + 65536 - 1) % 65536)) ∧
      s1.interpret_address .Pop =
        some ({ s1 with stack_pointer := c9state.stack_pointer },
              .Address ((c9state.stack_pointer + 65536 - 1) % 65536))) ∧
    (∃ r, c9state.step = some (r, false) ∧ r.stack_pointer = c9state.stack_pointer ∧
      r.ram = c9state.ram ∧ r.program_counter = 1) :=
  ⟨C9_push_pop_ordering.1 c9state (by decide),
   C9_push_pop_ordering.2 c9state rfl rfl (by decide)⟩

/-- C10. `step()` is not total at the fetch boundary: whenever the
instruction word (or a required extra word) lies at an index at or past the
program-image length, the fetch indexes out of bounds and the step fails
(`none`) instead of returning `false`; the constructor accepts the empty
image, on which the very first `step` already fails, and a one-word image
holding the two-word instruction `SET A, next` fails on its extra word. -/
theorem C10_step_fetch_out_of_bounds :
    (∀ s : DCPU16, s.program.length ≤ s.program_counter → s.step = none) ∧
    (∃ s0, DCPU16.new [] = some s0 ∧ s0.step = none) ∧
    (∃ s0, DCPU16.new [0x7c01] = some s0 ∧ s0.step = none) := by
  refine ⟨?_, ⟨_, rfl, rfl⟩, ⟨_, rfl, rfl⟩⟩
  intro s h
  have hg : s.program.get? s.program_counter = none := List.get?_eq_none.mpr h
  have hg2 : s.program[s.program_counter]? = none := by
    rw [← List.get?_eq_getElem?]; exact hg
  unfold DCPU16.step DCPU16.read_instruction DCPU16.read_word_and_advance_pc
  simp [hg, hg2]

/-- Witness for C10, at a CPU whose PC (5) lies past its two-word image. -/
theorem C10_step_fetch_out_of_bounds_witness : c10state.step = none :=
  C10_step_fetch_out_of_bounds.1 c10state (by decide)

end Emu

namespace Dec

/-- C8. Decoding a 6-bit operand field is total and follows the §4.1 table;
exactly `AtRegPlusNext`, `AtNext` and `NextLiteral` have one extra word;
and the decoded instruction's length is `1 + a.extra_words + b.extra_words`
(non-basic form: one plus the extra words of the sole operand, which is
decoded from the upper field; `Reserved` has length 1). -/
theorem C8_operand_decode_table :
    (∀ v : Nat, v < 0x08 →
      ∃ r, InstructionArgumentDefinition.decode v = some (.Register r) ∧ r.toIndex = v) ∧
    (∀ v : Nat, 0x08 ≤ v → v < 0x10 →
      ∃ r, InstructionArgumentDefinition.decode v = some (.AtAddressFromRegister r) ∧
        r.toIndex = v - 0x08) ∧
    (∀ v : Nat, 0x10 ≤ v → v < 0x18 →
      ∃ r, InstructionArgumentDefinition.decode v =
        some (.AtAddressFromNextWordPlusRegister r) ∧ r.toIndex = v - 0x10) ∧
    (InstructionArgumentDefinition.decode 0x18 = some .Pop ∧
     InstructionArgumentDefinition.decode 0x19 = some .Peek ∧
     InstructionArgumentDefinition.decode 0x1a = some .Push ∧
     InstructionArgumentDefinition.decode 0x1b = some .OfStackPointer ∧
     InstructionArgumentDefinition.decode 0x1c = some .OfProgramCounter ∧
     InstructionArgumentDefinition.decode 0x1d = some .OfOverflow ∧
     InstructionArgumentDefinition.decode 0x1e = some .AtAddressFromNextWord ∧
     InstructionArgumentDefinition.decode 0x1f = some .NextWordLiteral) ∧
    (∀ v : Nat, 0x20 ≤ v → v < 0x40 →
      InstructionArgumentDefinition.decode v = some (.Literal (v - 0x20))) ∧
    (∀ v : Nat, v < 0x40 → (InstructionArgumentDefinition.decode v).isSome) ∧
    (∀ d : InstructionArgumentDefinition,
      (d.num_extra_words = 1 ↔
        ((∃ r, d = .AtAddressFromNextWordPlusRegister r) ∨
          d = .AtAddressFromNextWord ∨ d = .NextWordLiteral)) ∧
      (d.num_extra_words = 0 ∨ d.num_extra_words = 1)) ∧
    (∀ w : Nat, w < 65536 →
      ∀ a b, InstructionArgumentDefinition.decode ((w / 16) % 64) = some a →
        InstructionArgumentDefinition.decode ((w / 1024) % 64) = some b →
        ∃ iw, InstructionWord.fromWord w = some iw ∧
          iw.length_in_words =
            if w % 16 = 0 then (if (w / 16) % 64 = 1 then 1 + b.num_extra_words else 1)
            else 1 + (a.num_extra_words + b.num_extra_words)) := by
  refine ⟨?_, ?_, ?_, ⟨rfl, rfl, rfl, rfl, rfl, rfl, rfl, rfl⟩, ?_, ?_, ?_, ?_⟩
  · intro v h
    interval_cases v <;> exact ⟨_, rfl, rfl⟩
  · intro v h1 h2
    interval_cases v <;> exact ⟨_, rfl, rfl⟩
  · intro v h1 h2
    interval_cases v <;> exact ⟨_, rfl, rfl⟩
  · intro v h1 h2
    interval_cases v <;> rfl
  · intro v h
    interval_cases v <;> rfl
  · intro d
    cases d <;>
      simp [InstructionArgumentDefinition.num_extra_words]
  · intro w hw a b ha hb
    have hop : w % 16 < 16 := Nat.mod_lt _ (by norm_num)
    have hsub64 : (w / 16) % 64 < 64 := Nat.mod_lt _ (by norm_num)
    unfold InstructionWord.fromWord
    simp only [ha, hb]
    set o := w % 16 with ho
    interval_cases o
    · -- non-basic: case on the sub-opcode field
      unfold NonBasicInstruction.fromWord
      rw [← ho]
      simp only [hb]
      set u := (w / 16) % 64 with hu
      interval_cases u <;>
        exact ⟨_, rfl, by simp [InstructionWord.length_in_words,
          NonBasicInstruction.length_in_words, ← ho, ← hu]⟩
    all_goals
      exact ⟨_, rfl, by simp [InstructionWord.length_in_words, ← ho]⟩

/-- Witness for C8, at concrete operand fields and the instruction words
`0x7c01` (`SET A, next` — two words) and `0x0010` (`JSR A` — one word). -/
theorem C8_operand_decode_table_witness :
    (∃ r, InstructionArgumentDefinition.decode 0x03 = some (.Register r) ∧
      r.toIndex = 0x03) ∧
    (∃ r, InstructionArgumentDefinition.decode 0x0a = some (.AtAddressFromRegister r) ∧
      r.toIndex = 0x02) ∧
    (∃ r, InstructionArgumentDefinition.decode 0x13 =
      some (.AtAddressFromNextWordPlusRegister r) ∧ r.toIndex = 0x03) ∧
    InstructionArgumentDefinition.decode 0x25 = some (.Literal 0x05) ∧
    (InstructionArgumentDefinition.decode 0x3f).isSome ∧
    (∃ iw, InstructionWord.fromWord 0x7c01 = some iw ∧ iw.length_in_words = 2) ∧
    (∃ iw, InstructionWord.fromWord 0x0010 = some iw ∧ iw.length_in_words = 1) :=
  ⟨C8_operand_decode_table.1 0x03 (by norm_num),
   C8_operand_decode_table.2.1 0x0a (by norm_num) (by norm_num),
   C8_operand_decode_table.2.2.1 0x13 (by norm_num) (by norm_num),
   C8_operand_decode_table.2.2.2.2.1 0x25 (by norm_num) (by norm_num),
   C8_operand_decode_table.2.2.2.2.2.1 0x3f (by norm_num),
   C8_operand_decode_table.2.2.2.2.2.2.2 0x7c01 (by norm_num) (.Register .A)
     .NextWordLiteral rfl rfl,
   C8_operand_decode_table.2.2.2.2.2.2.2 0x0010 (by norm_num) (.Register .B)
     (.Register .A) rfl rfl⟩

end Dec

end DCPU

namespace DCPU.Asm

theorem len_bounds (e : MaterializedInstruction) : 1 ≤ e.len ∧ e.len ≤ 3 := by
  cases e <;> simp only [MaterializedInstruction.len] <;> split <;> split <;> omega

theorem materialize_instruction {i : Instruction} {m : LabelMap}
    {e : MaterializedInstruction} (h : i.materialize m = some e) :
    e.instruction = i := by
  unfold Instruction.materialize at h
  split at h <;>
    (try split at h) <;>
    (try split at h) <;>
    (try split at h) <;>
    first
      | (simp only [Option.some.injEq] at h; subst h; rfl)
      | simp at h

theorem lookup_mem {m : LabelMap} {l : String} {v : Nat} (h : m.lookup l = some v) :
    (l, v) ∈ m := by
  induction m with
  | nil => simp [List.lookup] at h
  | cons p ps ih =>
    obtain ⟨k, w⟩ := p
    rw [List.lookup] at h
    cases hbe : (l == k) <;> rw [hbe] at h <;> simp only [] at h
    · exact List.mem_cons_of_mem _ (ih h)
    · have hk : l = k := by simpa using hbe
      subst hk
      simp only [Option.some.injEq] at h
      subst h
      exact List.mem_cons_self _ _

theorem lookup_shiftLabels (m : LabelMap) (pos : Nat) (d : Int) (l : String) :
    (m.shiftLabels pos d).lookup l =
      (m.lookup l).map fun v => if v > pos then (((v : Int) + d) % 65536).toNat else v := by
  induction m with
  | nil => rfl
  | cons p ps ih =>
    obtain ⟨k, v⟩ := p
    simp only [LabelMap.shiftLabels, List.map] at ih ⊢
    by_cases hv : v > pos
    · rw [if_pos hv, List.lookup, List.lookup]
      cases hbe : (l == k)
      · simp only [hbe]
        exact ih
      · simp [hv]
    · rw [if_neg hv, List.lookup, List.lookup]
      cases hbe : (l == k)
      · simp only [hbe]
        exact ih
      · simp [hv]

theorem mapLE_refl (m : LabelMap) : mapLE m m := by
  intro l
  cases h : m.lookup l with
  | none => exact Or.inl ⟨rfl, rfl⟩
  | some v => exact Or.inr ⟨v, v, rfl, rfl, le_refl v⟩

theorem mapLE_trans {m1 m2 m3 : LabelMap} (h12 : mapLE m1 m2) (h23 : mapLE m2 m3) :
    mapLE m1 m3 := by
  intro l
  rcases h12 l with ⟨ha, hb⟩ | ⟨v, v', hv, hv', hle⟩
  · rcases h23 l with ⟨hc, hd⟩ | ⟨w, w', hw, hw', hle'⟩
    · exact Or.inl ⟨ha, hd⟩
    · rw [hb] at hw; exact absurd hw (by simp)
  · rcases h23 l with ⟨hc, hd⟩ | ⟨w, w', hw, hw', hle'⟩
    · rw [hv'] at hc; exact absurd hc (by simp)
    · rw [hv'] at hw
      simp only [Option.some.injEq] at hw
      exact Or.inr ⟨v, w', hv, hw', le_trans hle (hw ▸ hle')⟩

theorem mapLE_shiftLabels {m : LabelMap} (pos : Nat) {d : Int} (hd : 0 ≤ d)
    (hb : ∀ p ∈ m, (p.2 : Int) + d ≤ 65535) :
    mapLE m (m.shiftLabels pos d) := by
  intro l
  cases h : m.lookup l with
  | none =>
    refine Or.inl ⟨rfl, ?_⟩
    rw [lookup_shiftLabels, h]
    rfl
  | some v =>
    refine Or.inr ⟨v, if v > pos then (((v : Int) + d) % 65536).toNat else v, rfl, ?_, ?_⟩
    · rw [lookup_shiftLabels, h]
      rfl
    · split
      · have hmem := lookup_mem h
        have hbd : (v : Int) + d ≤ 65535 := hb _ hmem
        have h0 : (0 : Int) ≤ (v : Int) + d := by positivity
        rw [Int.emod_eq_of_lt h0 (by omega)]
        omega
      · exact le_refl v

theorem len_flex_basic (bi : BasicOperationName) (arg1 : InstructionArgument)
    (addr : Nat) (i : Instruction) :
    (MaterializedInstruction.Flexible i (bi.bake arg1 (.Literal addr)).1
        (bi.bake arg1 (.Literal addr)).2.1 (bi.bake arg1 (.Literal addr)).2.2).len =
      1 + (if arg1.bake.literal.isSome then 1 else 0) +
        (if addr > 0x1f then 1 else 0) := by
  have hlit : (InstructionArgument.Literal addr).bake.literal =
      if addr > 0x1f then some addr else none := by
    by_cases h : addr > 0x1f <;> simp [InstructionArgument.bake, h]
  by_cases ha : arg1.bake.literal.isSome <;>
    by_cases hb : addr > 0x1f <;>
    simp [BasicOperationName.bake, MaterializedInstruction.len, hlit, ha, hb]

theorem len_flex_nonbasic (nbi : NonBasicOperationName) (addr : Nat) (i : Instruction) :
    (MaterializedInstruction.Flexible i (nbi.bake (.Literal addr)).1
        (nbi.bake (.Literal addr)).2 none).len =
      1 + (if addr > 0x1f then 1 else 0) := by
  have hlit : (InstructionArgument.Literal addr).bake.literal =
      if addr > 0x1f then some addr else none := by
    by_cases h : addr > 0x1f <;> simp [InstructionArgument.bake, h]
  by_cases hb : addr > 0x1f <;>
    simp [NonBasicOperationName.bake, MaterializedInstruction.len, hlit, hb]

theorem materialize_mono {i : Instruction} {m m' : LabelMap} {e : MaterializedInstruction}
    (hle : mapLE m m') (h : i.materialize m = some e) :
    ∃ e', i.materialize m' = some e' ∧ e.len ≤ e'.len := by
  cases i with
  | NonBasicInstruction nbi a =>
    cases a with
    | Static arg =>
      refine ⟨e, ?_, le_refl _⟩
      exact h
    | LabelReference ref =>
      unfold Instruction.materialize at h ⊢
      simp only [] at h ⊢
      rcases hle ref with ⟨h1, h2⟩ | ⟨v, v', hv, hv', hvle⟩
      · rw [h1] at h
        exact absurd h (by simp)
      · rw [hv] at h
        rw [hv']
        simp only [Option.some.injEq] at h
        subst h
        refine ⟨_, rfl, ?_⟩
        rw [len_flex_nonbasic, len_flex_nonbasic]
        by_cases hc : v > 0x1f
        · have hc2 : v' > 0x1f := by omega
          simp [hc, hc2]
        · split <;> omega
  | BasicInstruction bi a b =>
    cases a with
    | LabelReference _ =>
      unfold Instruction.materialize at h
      exact absurd h (by simp)
    | Static arg1 =>
      cases b with
      | Static arg2 =>
        refine ⟨e, ?_, le_refl _⟩
        exact h
      | LabelReference ref =>
        unfold Instruction.materialize at h ⊢
        simp only [] at h ⊢
        rcases hle ref with ⟨h1, h2⟩ | ⟨v, v', hv, hv', hvle⟩
        · rw [h1] at h
          exact absurd h (by simp)
        · rw [hv] at h
          rw [hv']
          simp only [Option.some.injEq] at h
          subst h
          refine ⟨_, rfl, ?_⟩
          rw [len_flex_basic, len_flex_basic]
          by_cases hc : v > 0x1f
          · have hc2 : v' > 0x1f := by omega
            simp [hc, hc2]
          · split <;> split <;> omega

theorem materialize_static_any_map {i : Instruction} {m : LabelMap}
    {iw : Instruction} {w : Word} {a1 a2 : Option Word}
    (h : i.materialize m = some (.Static iw w a1 a2)) (m' : LabelMap) :
    i.materialize m' = some (.Static iw w a1 a2) := by
  cases i with
  | NonBasicInstruction nbi a =>
    cases a with
    | Static arg => exact h
    | LabelReference ref =>
      unfold Instruction.materialize at h
      simp only [] at h
      cases hl : List.lookup ref m <;> rw [hl] at h <;> simp at h
  | BasicInstruction bi a b =>
    cases a with
    | LabelReference _ =>
      unfold Instruction.materialize at h
      exact absurd h (by simp)
    | Static arg1 =>
      cases b with
      | Static arg2 => exact h
      | LabelReference ref =>
        unfold Instruction.materialize at h
        simp only [] at h
        cases hl : List.lookup ref m <;> rw [hl] at h <;> simp at h

theorem OPT_cons {e : MaterializedInstruction} {rest : List MaterializedInstruction}
    {m : LabelMap} (h : OPT (e :: rest) m) : OPT rest m :=
  fun e' he' => h e' (List.mem_cons_of_mem _ he')

theorem MATINV_cons {e : MaterializedInstruction} {rest : List MaterializedInstruction}
    (h : MATINV (e :: rest)) : MATINV rest :=
  fun e' he' => h e' (List.mem_cons_of_mem _ he')

theorem OPT_mono {rest : List MaterializedInstruction} {m m' : LabelMap}
    (hle : mapLE m m') (h : OPT rest m) : OPT rest m' := by
  intro e he hf
  obtain ⟨e1, he1, hlen⟩ := h e he hf
  obtain ⟨e2, he2, hlen2⟩ := materialize_mono hle he1
  exact ⟨e2, he2, le_trans hlen hlen2⟩

theorem totalLen_cons (e : MaterializedInstruction) (l : List MaterializedInstruction) :
    totalLen (e :: l) = e.len + totalLen l := by
  simp [totalLen]

theorem totalLen_le (l : List MaterializedInstruction) : totalLen l ≤ 3 * l.length := by
  induction l with
  | nil => simp [totalLen]
  | cons e l ih =>
    rw [totalLen_cons]
    have := (len_bounds e).2
    simp only [List.length_cons]
    omega

theorem totalLen_ge (l : List MaterializedInstruction) : l.length ≤ totalLen l := by
  induction l with
  | nil => simp [totalLen]
  | cons e l ih =>
    rw [totalLen_cons]
    have := (len_bounds e).1
    simp only [List.length_cons]
    omega

theorem walkPass_spec (Ntot : Nat) (hN : 3 * Ntot ≤ 65535) :
    ∀ (rest : List MaterializedInstruction) (m : LabelMap) (pos extra : Nat),
    OPT rest m →
    MATINV rest →
    (∀ p ∈ m, p.2 ≤ pos + extra + totalLen rest) →
    pos + extra ≤ 3 * (Ntot - rest.length) →
    rest.length ≤ Ntot →
    ∃ out m' c,
      walkPass rest m pos = some (out, m', c) ∧
      out.length = rest.length ∧
      out.map MaterializedInstruction.instruction =
        rest.map MaterializedInstruction.instruction ∧
      totalLen rest ≤ totalLen out ∧
      (c = false → out = rest ∧ m' = m) ∧
      (c = true → totalLen rest < totalLen out) ∧
      mapLE m m' ∧
      (∀ p ∈ m', p.2 ≤ pos + extra + totalLen out) ∧
      OPT out m' ∧
      MATINV out := by
  intro rest
  induction rest with
  | nil =>
    intro m pos extra _ _ hval _ _
    refine ⟨[], m, false, rfl, rfl, rfl, le_refl _, fun _ => ⟨rfl, rfl⟩,
      by simp, mapLE_refl m, ?_, fun e he => absurd he (by simp),
      fun e he => absurd he (by simp)⟩
    simpa [totalLen] using hval
  | cons e rest' ih =>
    intro m pos extra hopt hmat hval hacc hlen
    have hlen3 := len_bounds e
    have hrl : rest'.length + 1 ≤ Ntot := by simpa using hlen
    have hposm : (pos + e.len) % 65536 = pos + e.len := by
      apply Nat.mod_eq_of_lt
      simp only [List.length_cons] at hacc
      omega
    cases he : e with
    | Static i w a1 a2 =>
      subst he
      have hrec := ih m (pos + (MaterializedInstruction.Static i w a1 a2).len) extra
        (OPT_cons hopt) (MATINV_cons hmat)
        (by
          intro p hp
          have := hval p hp
          rw [totalLen_cons] at this
          omega)
        (by
          have h3 : (MaterializedInstruction.Static i w a1 a2).len ≤ 3 := hlen3.2
          simp only [List.length_cons] at hacc
          omega)
        (by omega)
      obtain ⟨out', m', c, hw, hl, hi, ht, hf, hc, hle, hv, ho, hm⟩ := hrec
      refine ⟨.Static i w a1 a2 :: out', m', c, ?_, by simpa using hl, ?_, ?_, ?_, ?_, hle,
        ?_, ?_, ?_⟩
      · rw [walkPass]
        simp only [hposm, hw]
      · simpa using hi
      · rw [totalLen_cons, totalLen_cons]
        omega
      · intro hcf
        obtain ⟨h1, h2⟩ := hf hcf
        exact ⟨by rw [h1], h2⟩
      · intro hct
        have := hc hct
        rw [totalLen_cons, totalLen_cons]
        omega
      · intro p hp
        have := hv p hp
        rw [totalLen_cons]
        omega
      · intro e2 he2 hfl
        rcases List.mem_cons.mp he2 with rfl | he2
        · exact absurd hfl (by simp [MaterializedInstruction.isFlexible])
        · exact ho e2 he2 hfl
      · intro e2 he2
        rcases List.mem_cons.mp he2 with rfl | he2
        · exact hmat _ (List.mem_cons_self _ _)
        · exact hm e2 he2
    | Flexible i w a1 a2 =>
      subst he
      obtain ⟨eN, heN, hlenN⟩ :=
        hopt _ (List.mem_cons_self _ _) (by simp [MaterializedInstruction.isFlexible])
      have heN' : i.materialize m = some eN := heN
      have hiN : eN.instruction = i := by
        have := materialize_instruction heN
        simpa [MaterializedInstruction.instruction] using this
      have heNlen := len_bounds eN
      by_cases hd : eN.len = (MaterializedInstruction.Flexible i w a1 a2).len
      · -- no length change: entry kept, map untouched
        have hrec := ih m (pos + (MaterializedInstruction.Flexible i w a1 a2).len) extra
          (OPT_cons hopt) (MATINV_cons hmat)
          (by
            intro p hp
            have := hval p hp
            rw [totalLen_cons] at this
            omega)
          (by
            have h3 : (MaterializedInstruction.Flexible i w a1 a2).len ≤ 3 := hlen3.2
            simp only [List.length_cons] at hacc
            omega)
          (by omega)
        obtain ⟨out', m', c, hw, hl, hi2, ht, hf, hc, hle, hv, ho, hm⟩ := hrec
        refine ⟨.Flexible i w a1 a2 :: out', m', c, ?_, by simpa using hl, ?_, ?_, ?_, ?_,
          hle, ?_, ?_, ?_⟩
        · rw [walkPass]
          simp only [hposm, heN']
          rw [if_neg (by omega)]
          simp only [hw]
        · simpa using hi2
        · rw [totalLen_cons, totalLen_cons]
          omega
        · intro hcf
          obtain ⟨h1, h2⟩ := hf hcf
          exact ⟨by rw [h1], h2⟩
        · intro hct
          have := hc hct
          rw [totalLen_cons, totalLen_cons]
          omega
        · intro p hp
          have := hv p hp
          rw [totalLen_cons]
          omega
        · intro e2 he2 hfl
          rcases List.mem_cons.mp he2 with rfl | he2
          · obtain ⟨e3, he3, hl3⟩ := materialize_mono hle heN'
            exact ⟨e3, he3, by omega⟩
          · exact ho e2 he2 hfl
        · intro e2 he2
          rcases List.mem_cons.mp he2 with rfl | he2
          · exact hmat _ (List.mem_cons_self _ _)
          · exact hm e2 he2
      · -- length change: replace the entry and shift the labels
        have hdpos : (MaterializedInstruction.Flexible i w a1 a2).len < eN.len := by omega
        have h3len : eN.len ≤ 3 := heNlen.2
        have hshb : ∀ p ∈ m,
            (p.2 : Int) + ((eN.len : Int) -
              ((MaterializedInstruction.Flexible i w a1 a2).len : Int)) ≤ 65535 := by
          intro p hp
          have := hval p hp
          rw [totalLen_cons] at this
          simp only [List.length_cons] at hacc
          have hj := totalLen_le rest'
          omega
        have hleShift : mapLE m (m.shiftLabels
            (pos + (MaterializedInstruction.Flexible i w a1 a2).len)
            ((eN.len : Int) - ((MaterializedInstruction.Flexible i w a1 a2).len : Int))) :=
          mapLE_shiftLabels _ (by omega) hshb
        have hrec := ih (m.shiftLabels
            (pos + (MaterializedInstruction.Flexible i w a1 a2).len)
            ((eN.len : Int) - ((MaterializedInstruction.Flexible i w a1 a2).len : Int)))
          (pos + (MaterializedInstruction.Flexible i w a1 a2).len)
          (extra + (eN.len - (MaterializedInstruction.Flexible i w a1 a2).len))
          (OPT_mono hleShift (OPT_cons hopt)) (MATINV_cons hmat)
          (by
            intro p hp
            obtain ⟨q, hq, hqe⟩ := List.mem_map.mp hp
            have hqv := hval q hq
            rw [totalLen_cons] at hqv
            subst hqe
            by_cases hgt : q.2 > pos + (MaterializedInstruction.Flexible i w a1 a2).len
            · simp only [if_pos hgt]
              have hq65 := hshb q hq
              have h0 : (0 : Int) ≤ (q.2 : Int) + ((eN.len : Int) -
                  ((MaterializedInstruction.Flexible i w a1 a2).len : Int)) := by omega
              rw [Int.emod_eq_of_lt h0 (by omega)]
              omega
            · simp only [if_neg hgt]
              omega)
          (by
            simp only [List.length_cons] at hacc
            omega)
          (by omega)
        obtain ⟨out', m', c, hw, hl, hi2, ht, hf, hc, hle, hv, ho, hm⟩ := hrec
        have hleFull : mapLE m m' := mapLE_trans hleShift hle
        refine ⟨eN :: out', m', true, ?_, by simpa using hl, ?_, ?_, ?_, ?_, hleFull,
          ?_, ?_, ?_⟩
        · rw [walkPass]
          simp only [hposm, heN']
          rw [if_pos (by omega)]
          simp only [hw]
        · show List.map MaterializedInstruction.instruction (eN :: out') =
            List.map MaterializedInstruction.instruction
              (MaterializedInstruction.Flexible i w a1 a2 :: rest')
          rw [List.map_cons, List.map_cons, hiN, hi2]
          rfl
        · rw [totalLen_cons, totalLen_cons]
          omega
        · intro hcf
          exact absurd hcf (by simp)
        · intro _
          rw [totalLen_cons, totalLen_cons]
          omega
        · intro p hp
          have := hv p hp
          rw [totalLen_cons]
          omega
        · intro e2 he2 hfl
          rcases List.mem_cons.mp he2 with rfl | he2
          · obtain ⟨e3, he3, hl3⟩ := materialize_mono hleFull heN'
            exact ⟨e3, by rw [hiN]; exact he3, hl3⟩
          · exact ho e2 he2 hfl
        · intro e2 he2
          rcases List.mem_cons.mp he2 with rfl | he2
          · exact ⟨m, by rw [hiN]; exact heN'⟩
          · exact hm e2 he2
theorem fixpointLoop_spec (Ntot : Nat) (hN : 3 * Ntot ≤ 65535) :
    ∀ (fuel : Nat) (instrs : List MaterializedInstruction) (m : LabelMap),
    OPT instrs m → MATINV instrs →
    (∀ p ∈ m, p.2 ≤ totalLen instrs) →
    instrs.length = Ntot →
    3 * Ntot + 1 ≤ totalLen instrs + fuel →
    ∃ instrs' m',
      fixpointLoop fuel instrs m = some (instrs', m') ∧
      walkPass instrs' m' 0 = some (instrs', m', false) ∧
      instrs'.map MaterializedInstruction.instruction =
        instrs.map MaterializedInstruction.instruction ∧
      (∀ p ∈ m', p.2 ≤ totalLen instrs') ∧
      OPT instrs' m' ∧ MATINV instrs' ∧ mapLE m m' ∧ instrs'.length = Ntot := by
  intro fuel
  induction fuel with
  | zero =>
    intro instrs m _ _ _ hlen hfuel
    exact absurd (totalLen_le instrs) (by rw [hlen]; omega)
  | succ f ih =>
    intro instrs m hopt hmat hval hlen hfuel
    obtain ⟨out, m', c, hw, hl, hi, ht, hf, hc, hle, hv, ho, hm⟩ :=
      walkPass_spec Ntot hN instrs m 0 0 hopt hmat (by simpa using hval)
        (by simp) (le_of_eq hlen)
    cases c with
    | false =>
      obtain ⟨h1, h2⟩ := hf rfl
      subst h1
      subst h2
      refine ⟨out, m', ?_, hw, rfl, hval, hopt, hmat, mapLE_refl m', hlen⟩
      rw [fixpointLoop, hw]
      simp
    | true =>
      have hstrict := hc rfl
      obtain ⟨instrs', m'', hloop, hfp, hmap, hval', ho', hm', hle', hlen'⟩ :=
        ih out m' ho hm (by simpa using hv) (hl.trans hlen) (by omega)
      refine ⟨instrs', m'', ?_, hfp, hmap.trans hi, hval', ho', hm',
        mapLE_trans hle hle', hlen'⟩
      rw [fixpointLoop, hw]
      simpa using hloop

theorem arg_round (arg : InstructionArgument) :
    arg.bake.inline < 64 ∧
    ∃ d, Dec.InstructionArgumentDefinition.decode arg.bake.inline = some d ∧
      d.num_extra_words = (if arg.bake.literal.isSome then 1 else 0) ∧
      argFromDef d arg.bake.literal = some arg := by
  cases arg with
  | Register r => cases r <;> exact ⟨by decide, _, rfl, rfl, rfl⟩
  | AddressFromRegister r => cases r <;> exact ⟨by decide, _, rfl, rfl, rfl⟩
  | AddressOffset addr r =>
    cases r <;>
      exact ⟨by norm_num [InstructionArgument.bake, Register.toIndex], _, rfl, rfl, rfl⟩
  | StackOperation op => cases op <;> exact ⟨by decide, _, rfl, rfl, rfl⟩
  | SpecialRegister sr => cases sr <;> exact ⟨by decide, _, rfl, rfl, rfl⟩
  | Address w =>
    exact ⟨by norm_num [InstructionArgument.bake], _, rfl, rfl, rfl⟩
  | Literal w =>
    by_cases hw : w > 0x1f
    · have hb : (InstructionArgument.Literal w).bake =
          { inline := 0x1f, literal := some w } := by
        simp [InstructionArgument.bake, hw]
      rw [hb]
      exact ⟨show (0x1f : Nat) < 64 by norm_num, .NextWordLiteral, rfl, rfl, rfl⟩
    · have hb : (InstructionArgument.Literal w).bake =
          { inline := w + 0x20, literal := none } := by
        simp [InstructionArgument.bake, hw]
      rw [hb]
      have hw' : w ≤ 31 := Nat.le_of_not_lt hw
      refine ⟨show w + 0x20 < 64 from
        Nat.add_lt_add_right (Nat.lt_succ_of_le hw') 32, .Literal w, ?_, rfl, rfl⟩
      show Dec.InstructionArgumentDefinition.decode (w + 0x20) = some (.Literal w)
      interval_cases w <;> decide

theorem opcode_bounds (op : BasicOperationName) :
    1 ≤ op.opcode ∧ op.opcode ≤ 15 := by
  cases op <;> decide

theorem bake_fst (op : BasicOperationName) (a b : InstructionArgument) :
    (op.bake a b).1 =
      (op.opcode % 16) + (a.bake.inline % 64) * 16 + (b.bake.inline % 64) * 1024 := by
  unfold BasicOperationName.bake
  simp only []
  split <;> rfl

theorem bake_snd_some {a : InstructionArgument} {la : Word}
    (op : BasicOperationName) (b : InstructionArgument)
    (hla : a.bake.literal = some la) :
    (op.bake a b).2 = (some la, b.bake.literal) := by
  unfold BasicOperationName.bake
  simp [hla]

theorem bake_snd_none {a : InstructionArgument}
    (op : BasicOperationName) (b : InstructionArgument)
    (hla : a.bake.literal = none) :
    (op.bake a b).2 = (b.bake.literal, none) := by
  unfold BasicOperationName.bake
  simp [hla]

theorem basicOfWord_basicWordOf (op : BasicOperationName)
    (da db : Dec.InstructionArgumentDefinition) :
    basicOfWord (basicWordOf op da db) = some (op, da, db) := by
  cases op <;> rfl

theorem fromWord_bake_basic (op : BasicOperationName)
    {ai bi : Nat} {da db : Dec.InstructionArgumentDefinition}
    (h2 : ai < 64) (h3 : bi < 64)
    (hda : Dec.InstructionArgumentDefinition.decode ai = some da)
    (hdb : Dec.InstructionArgumentDefinition.decode bi = some db) :
    Dec.InstructionWord.fromWord
      ((op.opcode % 16) + (ai % 64) * 16 + (bi % 64) * 1024) =
      some (basicWordOf op da db) := by
  obtain ⟨h1a, h1b⟩ := opcode_bounds op
  rw [Nat.mod_eq_of_lt (show op.opcode < 16 by omega),
      Nat.mod_eq_of_lt h2, Nat.mod_eq_of_lt h3]
  unfold Dec.InstructionWord.fromWord
  simp only []
  rw [show ((op.opcode + ai * 16 + bi * 1024) / 16) % 64 = ai by omega,
      show ((op.opcode + ai * 16 + bi * 1024) / 1024) % 64 = bi by omega,
      hda, hdb]
  simp only []
  rw [show (op.opcode + ai * 16 + bi * 1024) % 16 = op.opcode by omega]
  cases op <;> rfl

theorem fromWord_bake_jsr {ai : Nat} {da : Dec.InstructionArgumentDefinition}
    (h2 : ai < 64)
    (hda : Dec.InstructionArgumentDefinition.decode ai = some da) :
    Dec.InstructionWord.fromWord ((1 % 64) * 16 + (ai % 64) * 1024) =
      some (.NonBasic (.Jsr da)) := by
  rw [Nat.mod_eq_of_lt h2, show (1 % 64) * 16 = 16 by norm_num]
  unfold Dec.InstructionWord.fromWord
  simp only []
  rw [show ((16 + ai * 1024) / 16) % 64 = 1 by omega,
      show ((16 + ai * 1024) / 1024) % 64 = ai by omega,
      hda, show Dec.InstructionArgumentDefinition.decode 1 =
        some (.Register .B) from rfl]
  simp only []
  rw [show (16 + ai * 1024) % 16 = 0 by omega]
  simp only []
  unfold Dec.NonBasicInstruction.fromWord
  rw [if_pos (show (16 + ai * 1024) % 16 = 0 by omega),
      show ((16 + ai * 1024) / 1024) % 64 = ai by omega, hda,
      show ((16 + ai * 1024) / 16) % 64 = 1 by omega]
  rfl

theorem decodeInstr_basic_eq {w : Word} {iw : Dec.InstructionWord}
    {op : BasicOperationName} {da db : Dec.InstructionArgumentDefinition}
    (hfw : Dec.InstructionWord.fromWord w = some iw)
    (hb : basicOfWord iw = some (op, da, db)) (rest : List Word) :
    decodeInstr w rest =
      match takeExtra da rest with
      | some (ea, rest1) =>
        match takeExtra db rest1 with
        | some (eb, rest2) =>
          match argFromDef da ea, argFromDef db eb with
          | some arga, some argb =>
            some (.BasicInstruction op (.Static arga) (.Static argb), rest2)
          | _, _ => none
        | none => none
      | none => none := by
  unfold decodeInstr
  rw [hfw]
  cases iw <;> simp only [basicOfWord] at hb <;>
    first
      | (simp only [Option.some.injEq, Prod.mk.injEq] at hb
         obtain ⟨h1, h2, h3⟩ := hb
         subst h1
         subst h2
         subst h3
         rfl)
      | simp at hb

theorem decodeInstr_jsr_eq {w : Word} {d : Dec.InstructionArgumentDefinition}
    (hfw : Dec.InstructionWord.fromWord w = some (.NonBasic (.Jsr d)))
    (rest : List Word) :
    decodeInstr w rest =
      match takeExtra d rest with
      | some (e, rest') =>
        match argFromDef d e with
        | some arg => some (.NonBasicInstruction .JSR (.Static arg), rest')
        | none => none
      | none => none := by
  unfold decodeInstr
  rw [hfw]

theorem decode_bake_basic (op : BasicOperationName) (a b : InstructionArgument)
    (rest : List Word) :
    decodeInstr (op.bake a b).1
      (((op.bake a b).2.1.toList ++ (op.bake a b).2.2.toList) ++ rest) =
      some (.BasicInstruction op (.Static a) (.Static b), rest) := by
  obtain ⟨ha64, da, hda, hdan, hdaf⟩ := arg_round a
  obtain ⟨hb64, db, hdb, hdbn, hdbf⟩ := arg_round b
  have hfw := fromWord_bake_basic op ha64 hb64 hda hdb
  have hbw := basicOfWord_basicWordOf op da db
  rw [bake_fst, decodeInstr_basic_eq hfw hbw]
  cases hla : a.bake.literal with
  | some la =>
    rw [hla] at hdan hdaf
    rw [bake_snd_some op b hla]
    cases hlb : b.bake.literal with
    | some lb =>
      rw [hlb] at hdbn hdbf
      simp [takeExtra, hdan, hdbn, hdaf, hdbf]
    | none =>
      rw [hlb] at hdbn hdbf
      simp [takeExtra, hdan, hdbn, hdaf, hdbf]
  | none =>
    rw [hla] at hdan hdaf
    rw [bake_snd_none op b hla]
    cases hlb : b.bake.literal with
    | some lb =>
      rw [hlb] at hdbn hdbf
      simp [takeExtra, hdan, hdbn, hdaf, hdbf]
    | none =>
      rw [hlb] at hdbn hdbf
      simp [takeExtra, hdan, hdbn, hdaf, hdbf]

theorem decode_bake_jsr (a : InstructionArgument) (rest : List Word) :
    decodeInstr (NonBasicOperationName.JSR.bake a).1
      ((NonBasicOperationName.JSR.bake a).2.toList ++ rest) =
      some (.NonBasicInstruction .JSR (.Static a), rest) := by
  obtain ⟨ha64, da, hda, hdan, hdaf⟩ := arg_round a
  have hfw := fromWord_bake_jsr ha64 hda
  have hb1 : (NonBasicOperationName.JSR.bake a).1 =
      (1 % 64) * 16 + (a.bake.inline % 64) * 1024 := rfl
  have hb2 : (NonBasicOperationName.JSR.bake a).2 = a.bake.literal := rfl
  rw [hb1, hb2, decodeInstr_jsr_eq hfw]
  cases hla : a.bake.literal with
  | some la =>
    rw [hla] at hdan hdaf
    simp [takeExtra, hdan, hdaf]
  | none =>
    rw [hla] at hdan hdaf
    simp [takeExtra, hdan, hdaf]

theorem materialize_flexible_shape {i : Instruction} {mm m : LabelMap}
    {iw : Instruction} {w : Word} {a1 a2 : Option Word}
    {e' : MaterializedInstruction}
    (h : i.materialize mm = some (.Flexible iw w a1 a2))
    (h' : i.materialize m = some e') :
    ∃ w' b1 b2, e' = .Flexible i w' b1 b2 := by
  cases i with
  | NonBasicInstruction nbi a =>
    cases a with
    | Static arg =>
      unfold Instruction.materialize at h
      simp at h
    | LabelReference ref =>
      unfold Instruction.materialize at h'
      simp only [] at h'
      cases hl : List.lookup ref m <;> rw [hl] at h' <;>
        simp only [Option.some.injEq] at h'
      · exact absurd h' (by simp)
      · exact ⟨_, _, _, h'.symm⟩
  | BasicInstruction bi a b =>
    cases a with
    | LabelReference _ =>
      unfold Instruction.materialize at h
      exact absurd h (by simp)
    | Static arg1 =>
      cases b with
      | Static arg2 =>
        unfold Instruction.materialize at h
        simp at h
      | LabelReference ref =>
        unfold Instruction.materialize at h'
        simp only [] at h'
        cases hl : List.lookup ref m <;> rw [hl] at h' <;>
          simp only [Option.some.injEq] at h'
        · exact absurd h' (by simp)
        · exact ⟨_, _, _, h'.symm⟩

theorem write_decode {i : Instruction} {m : LabelMap} {e : MaterializedInstruction}
    (hmat : i.materialize m = some e) {ws : List Word}
    (hw : write_materialized_instruction e m = some ws) :
    ∃ w0 tail i', ws = w0 :: tail ∧ substInstruction m i = some i' ∧
      ∀ rest : List Word, decodeInstr w0 (tail ++ rest) = some (i', rest) := by
  cases i with
  | BasicInstruction op a b =>
    cases a with
    | LabelReference _ =>
      unfold Instruction.materialize at hmat
      exact absurd hmat (by simp)
    | Static arg1 =>
      cases b with
      | Static arg2 =>
        unfold Instruction.materialize at hmat
        simp only [Option.some.injEq] at hmat
        subst hmat
        unfold write_materialized_instruction at hw
        simp only [Option.some.injEq] at hw
        subst hw
        refine ⟨_, _, _, rfl, rfl, ?_⟩
        intro rest
        have := decode_bake_basic op arg1 arg2 rest
        exact this
      | LabelReference ref =>
        unfold Instruction.materialize at hmat
        simp only [] at hmat
        cases hl : List.lookup ref m <;> rw [hl] at hmat <;>
          simp only [Option.some.injEq] at hmat
        · exact absurd hmat (by simp)
        · rename_i v
          subst hmat
          unfold write_materialized_instruction at hw
          simp only [] at hw
          rw [show (Instruction.BasicInstruction op (.Static arg1)
              (.LabelReference ref)).materialize m =
              some (.Flexible (.BasicInstruction op (.Static arg1)
                (.LabelReference ref))
                (op.bake arg1 (.Literal v)).1
                (op.bake arg1 (.Literal v)).2.1
                (op.bake arg1 (.Literal v)).2.2) from by
            unfold Instruction.materialize
            simp only []
            rw [hl]] at hw
          simp only [Option.some.injEq] at hw
          subst hw
          refine ⟨_, _, .BasicInstruction op (.Static arg1) (.Static (.Literal v)),
            rfl, ?_, ?_⟩
          · unfold substInstruction substValue
            simp only []
            rw [hl]
            rfl
          · intro rest
            have := decode_bake_basic op arg1 (.Literal v) rest
            exact this
  | NonBasicInstruction op a =>
    cases op
    cases a with
    | Static arg =>
      unfold Instruction.materialize at hmat
      simp only [Option.some.injEq] at hmat
      subst hmat
      unfold write_materialized_instruction at hw
      simp only [Option.some.injEq] at hw
      subst hw
      refine ⟨_, _, _, rfl, rfl, ?_⟩
      intro rest
      have := decode_bake_jsr arg rest
      simp only [write_instruction_word, Option.toList_none, List.append_nil] at this ⊢
      exact this
    | LabelReference ref =>
      unfold Instruction.materialize at hmat
      simp only [] at hmat
      cases hl : List.lookup ref m <;> rw [hl] at hmat <;>
        simp only [Option.some.injEq] at hmat
      · exact absurd hmat (by simp)
      · rename_i v
        subst hmat
        unfold write_materialized_instruction at hw
        simp only [] at hw
        rw [show (Instruction.NonBasicInstruction .JSR
            (.LabelReference ref)).materialize m =
            some (.Flexible (.NonBasicInstruction .JSR (.LabelReference ref))
              (NonBasicOperationName.JSR.bake (.Literal v)).1
              (NonBasicOperationName.JSR.bake (.Literal v)).2 none) from by
          unfold Instruction.materialize
          simp only []
          rw [hl]] at hw
        simp only [Option.some.injEq] at hw
        subst hw
        refine ⟨_, _, .NonBasicInstruction .JSR (.Static (.Literal v)),
          rfl, ?_, ?_⟩
        · unfold substInstruction substValue
          simp only []
          rw [hl]
          rfl
        · intro rest
          have := decode_bake_jsr (.Literal v) rest
          simp only [write_instruction_word, Option.toList_none,
            List.append_nil] at this ⊢
          exact this

theorem emit_decode_aux (m : LabelMap) :
    ∀ (instrs : List MaterializedInstruction),
    OPT instrs m → MATINV instrs →
    ∃ ws out, emitPass instrs m = some ws ∧
      instrs.length ≤ ws.length ∧
      substProgram m (instrs.map MaterializedInstruction.instruction) = some out ∧
      ∀ fuel, instrs.length ≤ fuel → decodeWordsAux fuel ws = some out := by
  intro instrs
  induction instrs with
  | nil =>
    intro _ _
    exact ⟨[], [], rfl, le_refl 0, rfl, fun fuel _ => by cases fuel <;> rfl⟩
  | cons e rest ih =>
    intro hopt hminv
    obtain ⟨wsr, outr, hemitr, hlenr, hsubr, hdecr⟩ :=
      ih (OPT_cons hopt) (MATINV_cons hminv)
    have hper : ∃ wse, write_materialized_instruction e m = some wse ∧
        ∃ w0 tail i', wse = w0 :: tail ∧
          substInstruction m e.instruction = some i' ∧
          ∀ r : List Word, decodeInstr w0 (tail ++ r) = some (i', r) := by
      cases e with
      | Static i w a1 a2 =>
        obtain ⟨mm, hmm⟩ := hminv _ (List.mem_cons_self _ _)
        have hmm' : i.materialize mm = some (.Static i w a1 a2) := hmm
        have hmatm : i.materialize m = some (.Static i w a1 a2) :=
          materialize_static_any_map hmm' m
        have hw : write_materialized_instruction (.Static i w a1 a2) m =
            some (write_instruction_word w a1 a2) := rfl
        obtain ⟨w0, tail, i', hws, hsub, hdec⟩ := write_decode hmatm hw
        exact ⟨_, hw, w0, tail, i', hws, hsub, hdec⟩
      | Flexible i w a1 a2 =>
        obtain ⟨mm, hmm⟩ := hminv _ (List.mem_cons_self _ _)
        obtain ⟨e', he', _⟩ := hopt _ (List.mem_cons_self _ _) trivial
        have hmm' : i.materialize mm = some (.Flexible i w a1 a2) := hmm
        have he'' : i.materialize m = some e' := he'
        obtain ⟨w', b1, b2, hshape⟩ := materialize_flexible_shape hmm' he''
        subst hshape
        have hw : write_materialized_instruction (.Flexible i w a1 a2) m =
            some (write_instruction_word w' b1 b2) := by
          unfold write_materialized_instruction
          simp only []
          rw [he'']
        obtain ⟨w0, tail, i', hws, hsub, hdec⟩ := write_decode he'' hw
        exact ⟨_, hw, w0, tail, i', hws, hsub, hdec⟩
    obtain ⟨wse, hw, w0, tail, i', hws, hsub, hdec⟩ := hper
    refine ⟨wse ++ wsr, i' :: outr, ?_, ?_, ?_, ?_⟩
    · unfold emitPass
      rw [hw, hemitr]
    · rw [hws]
      simp only [List.length_cons, List.length_append, List.length_cons]
      omega
    · simp only [List.map_cons]
      unfold substProgram
      rw [hsub, hsubr]
    · intro fuel hfuel
      simp only [List.length_cons] at hfuel
      cases fuel with
      | zero => omega
      | succ f =>
        rw [hws]
        simp only [List.cons_append]
        unfold decodeWordsAux
        rw [hdec wsr]
        simp only []
        rw [hdecr f (by omega)]

theorem lookup_append (m1 m2 : LabelMap) (l : String) :
    (m1 ++ m2).lookup l = (m1.lookup l).or (m2.lookup l) := by
  induction m1 with
  | nil => simp [List.lookup]
  | cons p ps ih =>
    obtain ⟨k, v⟩ := p
    rw [List.cons_append, List.lookup, List.lookup]
    cases hbe : (l == k)
    · simpa using ih
    · rfl

theorem lookup_setVal_self (m : LabelMap) (k : String) (v : Nat) :
    (m.setVal k v).lookup k = (m.lookup k).map (fun _ => v) := by
  induction m with
  | nil => rfl
  | cons p ps ih =>
    obtain ⟨k', v'⟩ := p
    show List.lookup k ((if k' = k then (k, v) else (k', v')) :: LabelMap.setVal ps k v) =
      Option.map (fun _ => v) (List.lookup k ((k', v') :: ps))
    by_cases hk : k' = k
    · have h1 : (k == k) = true := beq_self_eq_true k
      have h2 : (k == k') = true := by
        rw [beq_iff_eq]
        exact hk.symm
      rw [if_pos hk, List.lookup, List.lookup, h1, h2]
      rfl
    · have hbe : (k == k') = false := by
        rw [beq_eq_false_iff_ne]
        exact fun h => hk h.symm
      rw [if_neg hk, List.lookup, List.lookup, hbe]
      exact ih

theorem lookup_setVal_ne (m : LabelMap) (k : String) (v : Nat) {l : String}
    (hlk : l ≠ k) : (m.setVal k v).lookup l = m.lookup l := by
  induction m with
  | nil => rfl
  | cons p ps ih =>
    obtain ⟨k', v'⟩ := p
    show List.lookup l ((if k' = k then (k, v) else (k', v')) :: LabelMap.setVal ps k v) =
      List.lookup l ((k', v') :: ps)
    by_cases hk : k' = k
    · have hbe : (l == k) = false := by
        rw [beq_eq_false_iff_ne]
        exact hlk
      have hbe' : (l == k') = false := by
        rw [beq_eq_false_iff_ne]
        exact fun h => hlk (h.trans hk)
      rw [if_pos hk, List.lookup, List.lookup, hbe, hbe']
      exact ih
    · rw [if_neg hk, List.lookup, List.lookup]
      cases hbe : (l == k')
      · exact ih
      · rfl

theorem mapLE_setVal {m : LabelMap} {k : String} {v0 v : Nat}
    (hk : m.lookup k = some v0) (hle : v0 ≤ v) : mapLE m (m.setVal k v) := by
  intro l
  by_cases hlk : l = k
  · subst hlk
    refine Or.inr ⟨v0, v, hk, ?_, hle⟩
    rw [lookup_setVal_self, hk]
    rfl
  · have he := lookup_setVal_ne m k v hlk
    cases h : m.lookup l with
    | none => exact Or.inl ⟨rfl, he.trans h⟩
    | some w => exact Or.inr ⟨w, w, rfl, he.trans h, le_refl w⟩

theorem materialize_succeeds {i : Instruction} {m : LabelMap}
    (hL : lhsStatic i) (href : ∀ r ∈ i.refs, (m.lookup r).isSome) :
    ∃ e, i.materialize m = some e := by
  cases i with
  | NonBasicInstruction nbi a =>
    cases a with
    | Static arg => exact ⟨_, rfl⟩
    | LabelReference ref =>
      have hs := href ref (by simp [Instruction.refs, Value.refs])
      obtain ⟨v, hv⟩ := Option.isSome_iff_exists.mp hs
      unfold Instruction.materialize
      simp only []
      rw [hv]
      exact ⟨_, rfl⟩
  | BasicInstruction op a b =>
    cases a with
    | LabelReference _ => exact absurd hL (by simp [lhsStatic])
    | Static arg1 =>
      cases b with
      | Static arg2 => exact ⟨_, rfl⟩
      | LabelReference ref =>
        have hs := href ref (by simp [Instruction.refs, Value.refs])
        obtain ⟨v, hv⟩ := Option.isSome_iff_exists.mp hs
        unfold Instruction.materialize
        simp only []
        rw [hv]
        exact ⟨_, rfl⟩

theorem prescanLabels_spec :
    ∀ (tokens : List MetaInstruction) (m : LabelMap),
    (labelsOf tokens).Nodup →
    (∀ l ∈ labelsOf tokens, m.lookup l = none) →
    (∀ p ∈ m, p.2 = 0) →
    ∃ m0, prescanLabels tokens m = some m0 ∧
      (∀ l, m0.lookup l =
        if l ∈ labelsOf tokens then some 0 else m.lookup l) ∧
      (∀ p ∈ m0, p.2 = 0) := by
  intro tokens
  induction tokens with
  | nil =>
    intro m _ _ hz
    exact ⟨m, rfl, fun l => by simp [labelsOf], hz⟩
  | cons t rest ih =>
    intro m hnd hnone hz
    cases t with
    | Instruction i =>
      have hlab : labelsOf (.Instruction i :: rest) = labelsOf rest := rfl
      rw [hlab] at hnd hnone
      obtain ⟨m0, hpre, hchar, hz0⟩ := ih m hnd hnone hz
      exact ⟨m0, hpre, fun l => by rw [hchar, hlab], hz0⟩
    | Label lab =>
      have hlab : labelsOf (.Label lab :: rest) = lab :: labelsOf rest := rfl
      rw [hlab] at hnd hnone
      rw [List.nodup_cons] at hnd
      obtain ⟨hnotmem, hnd'⟩ := hnd
      have hlabnone : m.lookup lab = none := hnone lab (List.mem_cons_self _ _)
      have hnone' : ∀ l ∈ labelsOf rest, (m ++ [(lab, 0)]).lookup l = none := by
        intro l hl
        rw [lookup_append, hnone l (List.mem_cons_of_mem _ hl)]
        have hne : l ≠ lab := fun h => hnotmem (h ▸ hl)
        simp only [List.lookup]
        rw [show (l == lab) = false by rw [beq_eq_false_iff_ne]; exact hne]
        rfl
      have hz' : ∀ p ∈ m ++ [(lab, 0)], p.2 = 0 := by
        intro p hp
        rcases List.mem_append.mp hp with h | h
        · exact hz p h
        · simp at h
          rw [h]
      obtain ⟨m0, hpre, hchar, hz0⟩ := ih (m ++ [(lab, 0)]) hnd' hnone' hz'
      refine ⟨m0, ?_, ?_, hz0⟩
      · unfold prescanLabels
        rw [hlabnone]
        simpa using hpre
      · intro l
        rw [hchar l, lookup_append, hlab]
        by_cases hl : l ∈ labelsOf rest
        · rw [if_pos hl, if_pos (List.mem_cons_of_mem _ hl)]
        · rw [if_neg hl]
          by_cases hle : l = lab
          · subst hle
            rw [hlabnone, if_pos (List.mem_cons_self _ _)]
            simp [List.lookup]
          · rw [if_neg (by simp [hle, hl])]
            simp only [List.lookup]
            rw [show (l == lab) = false by rw [beq_eq_false_iff_ne]; exact hle]
            simp

theorem firstPass_spec :
    ∀ (tokens : List MetaInstruction) (m : LabelMap) (pos C : Nat),
    (∀ i ∈ instructionsOf tokens, lhsStatic i) →
    (∀ r ∈ refsOf tokens, (m.lookup r).isSome) →
    (labelsOf tokens).Nodup →
    (∀ l ∈ labelsOf tokens, m.lookup l = some 0) →
    (∀ p ∈ m, p.2 ≤ C) →
    pos ≤ C →
    pos + 3 * (instructionsOf tokens).length ≤ 65535 →
    ∃ instrs m1,
      firstPass tokens m pos = some (instrs, m1) ∧
      instrs.map MaterializedInstruction.instruction = instructionsOf tokens ∧
      MATINV instrs ∧
      mapLE m m1 ∧
      OPT instrs m1 ∧
      (∀ p ∈ m1, p.2 ≤ C + totalLen instrs) := by
  intro tokens
  induction tokens with
  | nil =>
    intro m pos C _ _ _ _ hv _ _
    refine ⟨[], m, rfl, rfl, ?_, mapLE_refl m, ?_, ?_⟩
    · intro e he
      exact absurd he (List.not_mem_nil e)
    · intro e he _
      exact absurd he (List.not_mem_nil e)
    · intro p hp
      have := hv p hp
      simpa [totalLen] using this
  | cons t rest ih =>
    intro m pos C hlhs href hnd hlab hv hpos hsz
    cases t with
    | Instruction i =>
      have hins : instructionsOf (.Instruction i :: rest) =
          i :: instructionsOf rest := rfl
      have hrefs : refsOf (.Instruction i :: rest) = i.refs ++ refsOf rest := rfl
      have hlabs : labelsOf (.Instruction i :: rest) = labelsOf rest := rfl
      rw [hins] at hlhs hsz
      rw [hrefs] at href
      rw [hlabs] at hnd hlab
      have hLi : lhsStatic i := hlhs i (List.mem_cons_self _ _)
      have hrefi : ∀ r ∈ i.refs, (m.lookup r).isSome := fun r hr =>
        href r (List.mem_append.mpr (Or.inl hr))
      obtain ⟨e, he⟩ := materialize_succeeds hLi hrefi
      have hlen3 := (len_bounds e).2
      have hmod : (pos + e.len) % 65536 = pos + e.len := by
        apply Nat.mod_eq_of_lt
        simp only [List.length_cons] at hsz
        omega
      obtain ⟨instrs, m1, hfp, hmap, hminv, hmle, hopt, hval⟩ :=
        ih m (pos + e.len) (C + e.len)
          (fun j hj => hlhs j (List.mem_cons_of_mem _ hj))
          (fun r hr => href r (List.mem_append.mpr (Or.inr hr)))
          hnd hlab
          (fun p hp => le_trans (hv p hp) (Nat.le_add_right C e.len))
          (Nat.add_le_add_right hpos e.len)
          (by simp only [List.length_cons] at hsz; omega)
      refine ⟨e :: instrs, m1, ?_, ?_, ?_, hmle, ?_, ?_⟩
      · unfold firstPass
        rw [he]
        simp only []
        rw [hmod, hfp]
      · rw [List.map_cons, materialize_instruction he, hmap]
        exact hins.symm
      · intro e0 he0
        rcases List.mem_cons.mp he0 with h | h
        · subst h
          exact ⟨m, by rw [materialize_instruction he]; exact he⟩
        · exact hminv e0 h
      · intro e0 he0 hf0
        rcases List.mem_cons.mp he0 with h | h
        · subst h
          obtain ⟨e2, he2, hl2⟩ := materialize_mono hmle he
          exact ⟨e2, by rw [materialize_instruction he]; exact he2, hl2⟩
        · exact hopt e0 h hf0
      · intro p hp
        have := hval p hp
        rw [totalLen_cons]
        omega
    | Label lab =>
      have hins : instructionsOf (.Label lab :: rest) = instructionsOf rest := rfl
      have hrefs : refsOf (.Label lab :: rest) = refsOf rest := rfl
      have hlabs : labelsOf (.Label lab :: rest) = lab :: labelsOf rest := rfl
      rw [hins] at hlhs hsz
      rw [hrefs] at href
      rw [hlabs] at hnd hlab
      rw [List.nodup_cons] at hnd
      obtain ⟨hnotmem, hnd'⟩ := hnd
      have hlab0 : m.lookup lab = some 0 := hlab lab (List.mem_cons_self _ _)
      have hmle0 : mapLE m (m.setVal lab pos) :=
        mapLE_setVal hlab0 (Nat.zero_le pos)
      obtain ⟨instrs, m1, hfp, hmap, hminv, hmle, hopt, hval⟩ :=
        ih (m.setVal lab pos) pos C hlhs
          (fun r hr => by
            cases hrs : m.lookup r with
            | none =>
              have := href r hr
              rw [hrs] at this
              simp at this
            | some w =>
              by_cases hrl : r = lab
              · subst hrl
                rw [lookup_setVal_self, hrs]
                rfl
              · rw [lookup_setVal_ne m lab pos hrl, hrs]
                rfl)
          hnd'
          (fun l hl => by
            have hne : l ≠ lab := fun h => hnotmem (h ▸ hl)
            rw [lookup_setVal_ne m lab pos hne]
            exact hlab l (List.mem_cons_of_mem _ hl))
          (fun p hp => by
            obtain ⟨q, hq, hpq⟩ := List.mem_map.mp hp
            have hpq' : (if q.1 = lab then (lab, pos) else q) = p := hpq
            by_cases hqk : q.1 = lab
            · rw [if_pos hqk] at hpq'
              rw [← hpq']
              exact hpos
            · rw [if_neg hqk] at hpq'
              rw [← hpq']
              exact hv q hq)
          hpos hsz
      exact ⟨instrs, m1, hfp, hmap, hminv, mapLE_trans hmle0 hmle, hopt, hval⟩

theorem walkPass_flexible_step (instr : Instruction) (w : Word)
    (a1 a2 : Option Word) (rest : List MaterializedInstruction)
    (m : LabelMap) (pos : Nat) (e' : MaterializedInstruction)
    (hmat : instr.materialize m = some e')
    (hne : e'.len ≠ (MaterializedInstruction.Flexible instr w a1 a2).len) :
    walkPass (MaterializedInstruction.Flexible instr w a1 a2 :: rest) m pos =
      match walkPass rest
        (m.shiftLabels
          ((pos + (MaterializedInstruction.Flexible instr w a1 a2).len) % 65536)
          ((e'.len : Int) -
            ((MaterializedInstruction.Flexible instr w a1 a2).len : Int)))
        ((pos + (MaterializedInstruction.Flexible instr w a1 a2).len) % 65536) with
      | some (l, m', _) => some (e' :: l, m', true)
      | none => none := by
  conv_lhs => unfold walkPass
  simp only []
  rw [hmat]
  simp only []
  rw [if_pos (show ((e'.len : Int) -
      ((MaterializedInstruction.Flexible instr w a1 a2).len : Int)) ≠ 0 from
    sub_ne_zero.mpr (by exact_mod_cast hne))]

/-- **C3.** For every valid source program the assembler's size resolver
terminates, and with fuel to spare: the fuelled loop reaches a genuine
fixed point (one further walk changes nothing). During the fixed-point
pass, a flexible instruction whose re-materialized length differs from its
recorded length causes every label whose current address is strictly
greater than the current position to be shifted by the size delta (third
conjunct: the walk step; second conjunct: the shift moves exactly the
labels past the position). Decoding the emitted word stream yields the
original abstract instruction list with every label reference replaced by
the final address the resolver assigned to that label. -/
theorem C3_assembler_fixed_point :
    (∀ tokens : List MetaInstruction, WF tokens →
      ∃ instrs m ws out,
        resolvePipeline tokens = some (instrs, m) ∧
        walkPass instrs m 0 = some (instrs, m, false) ∧
        instrs.map MaterializedInstruction.instruction = instructionsOf tokens ∧
        assemble tokens = some ws ∧
        substProgram m (instructionsOf tokens) = some out ∧
        decodeProgram ws = some out) ∧
    (∀ (m : LabelMap) (pos : Nat) (d : Int) (l : String) (v : Nat),
      m.lookup l = some v →
      (m.shiftLabels pos d).lookup l =
        some (if v > pos then (((v : Int) + d) % 65536).toNat else v)) ∧
    (∀ (instr : Instruction) (w : Word) (a1 a2 : Option Word)
        (rest : List MaterializedInstruction) (m : LabelMap) (pos : Nat)
        (e' : MaterializedInstruction),
      instr.materialize m = some e' →
      e'.len ≠ (MaterializedInstruction.Flexible instr w a1 a2).len →
      walkPass (MaterializedInstruction.Flexible instr w a1 a2 :: rest) m pos =
        match walkPass rest
          (m.shiftLabels
            ((pos + (MaterializedInstruction.Flexible instr w a1 a2).len) % 65536)
            ((e'.len : Int) -
              ((MaterializedInstruction.Flexible instr w a1 a2).len : Int)))
          ((pos + (MaterializedInstruction.Flexible instr w a1 a2).len) % 65536) with
        | some (l, m', _) => some (e' :: l, m', true)
        | none => none) := by
  refine ⟨?_, ?_, ?_⟩
  · intro tokens hWF
    obtain ⟨hnd, href, hlhs, hsz⟩ := hWF
    obtain ⟨m0, hpre, hchar, hz0⟩ := prescanLabels_spec tokens [] hnd
      (fun l _ => rfl) (fun p hp => absurd hp (List.not_mem_nil p))
    obtain ⟨instrs, m1, hfp, hmap, hminv, _, hopt, hval⟩ :=
      firstPass_spec tokens m0 0 0 hlhs
        (fun r hr => by rw [hchar r, if_pos (href r hr)]; rfl)
        hnd
        (fun l hl => by rw [hchar l, if_pos hl])
        (fun p hp => Nat.le_of_eq (hz0 p hp))
        (le_refl 0)
        (by simpa using hsz)
    have hlen : instrs.length = (instructionsOf tokens).length := by
      rw [← hmap, List.length_map]
    have hN : 3 * instrs.length ≤ 65535 := by omega
    obtain ⟨instrs2, m2, hloop, hfix, hmap2, hval2, hopt2, hminv2, _, hlen2⟩ :=
      fixpointLoop_spec instrs.length hN (2 * instrs.length + 2) instrs m1
        hopt hminv (fun p hp => by simpa using hval p hp) rfl
        (by have := totalLen_ge instrs; omega)
    obtain ⟨ws, out, hemit, hwslen, hsub, hdec⟩ :=
      emit_decode_aux m2 instrs2 hopt2 hminv2
    have hpipe : resolvePipeline tokens = some (instrs2, m2) := by
      unfold resolvePipeline
      rw [hpre]
      simp only []
      rw [hfp]
      simp only []
      exact hloop
    refine ⟨instrs2, m2, ws, out, hpipe, hfix, ?_, ?_, ?_, ?_⟩
    · rw [hmap2, hmap]
    · unfold assemble
      rw [hpipe]
      simp only []
      exact hemit
    · rw [← hmap, ← hmap2]
      exact hsub
    · unfold decodeProgram
      exact hdec ws.length (hlen2 ▸ hwslen)
  · intro m pos d l v hv
    rw [lookup_shiftLabels, hv]
    rfl
  · intro instr w a1 a2 rest m pos e' hmat hne
    exact walkPass_flexible_step instr w a1 a2 rest m pos e' hmat hne

/-- Witness for C3: `c3tokens` satisfies the validity hypothesis, the
pipeline facts follow by applying the theorem to it, and the shift clause
is exercised on the concrete map `[("x", 5)]`. -/
theorem C3_assembler_fixed_point_witness :
    WF c3tokens ∧
    (∃ instrs m ws out,
      resolvePipeline c3tokens = some (instrs, m) ∧
      walkPass instrs m 0 = some (instrs, m, false) ∧
      instrs.map MaterializedInstruction.instruction = instructionsOf c3tokens ∧
      assemble c3tokens = some ws ∧
      substProgram m (instructionsOf c3tokens) = some out ∧
      decodeProgram ws = some out) ∧
    ([("x", 5)] : LabelMap).lookup "x" = some 5 ∧
    (LabelMap.shiftLabels [("x", 5)] 3 1).lookup "x" =
      some (if 5 > 3 then (((5 : Int) + 1) % 65536).toNat else 5) := by
  have hwf : WF c3tokens := by
    refine ⟨?_, ?_, ?_, ?_⟩
    · simp [c3tokens, labelsOf]
    · intro l hl
      simp [c3tokens, refsOf, Instruction.refs, Value.refs] at hl
      simp [c3tokens, labelsOf, hl]
    · intro i hi
      simp [c3tokens, instructionsOf] at hi
      rcases hi with h | h <;> subst h <;> simp [lhsStatic]
    · norm_num [c3tokens, instructionsOf]
  have hx : ([("x", 5)] : LabelMap).lookup "x" = some 5 := by
    simp [List.lookup]
  exact ⟨hwf, C3_assembler_fixed_point.1 c3tokens hwf, hx,
    C3_assembler_fixed_point.2.1 [("x", 5)] 3 1 "x" 5 hx⟩

end DCPU.Asm
